import Mathlib

/-!
# Sort-Algo-Visualizer: the incremental sorting engine

A shallow embedding of the six `Sorter` strategies of `src/main.cpp`
(`BubbleSort`, `InsertionSort`, `SelectionSort`, `GnomeSort`, `BogoSort`,
`MiracleSort`) as explicit state machines.

* The bound array `int* arr` is a `List Int`; the C++ `int` fields
  (`size`, `i`, `j`, `index`, `minIndex`, `key`) are `Int`.  Every index the
  machines compute stays between `-1` and `size + 1`, so no wrap-around of the
  machine integers is involved.
* Every array access goes through `rd` / `wr`, which fail (`none`) on an
  index outside `0 .. length - 1`.  `step` therefore returns an `Option`:
  `none` means that the C++ code would have accessed the array out of bounds.
* `GetRandomValue` (raylib) is not part of the repository; `BogoSort.shuffle`
  takes the draw made at loop index `i` as a function `rand : Int → Int`.
-/

namespace SortViz

/-! ## Memory access -/

/-- Read `arr[k]`; `none` when `k` is outside the array. -/
def rd (arr : List Int) (k : Int) : Option Int :=
  if k < 0 then none else arr[k.toNat]?

/-- Write `arr[k] = v`; `none` when `k` is outside the array. -/
def wr (arr : List Int) (k : Int) (v : Int) : Option (List Int) :=
  if k < 0 then none
  else if k.toNat < arr.length then some (arr.set k.toNat v)
  else none

/-- Run `k` successive calls of a fallible step function. -/
def iter {S : Type} (f : S → Option S) : Nat → S → Option S
  | 0, s => some s
  | k + 1, s => (f s).bind (iter f k)

/-! ## BubbleSort (main.cpp 80-117) -/

structure BubbleSort where
  arr : List Int
  size : Int
  i : Int
  j : Int
deriving DecidableEq, Repr

namespace BubbleSort

/-- Constructor `BubbleSort()`: `arr(nullptr), size(0), i(0), j(0)`. -/
def new : BubbleSort := { arr := [], size := 0, i := 0, j := 0 }

def reset (_s : BubbleSort) (array : List Int) (sz : Int) : BubbleSort :=
  { arr := array, size := sz, i := 0, j := 0 }

def activeIndex (s : BubbleSort) : Int := s.j

def isSorted (s : BubbleSort) : Bool := decide (s.i ≥ s.size - 1)

def step (s : BubbleSort) : Option BubbleSort :=
  if s.isSorted then some s
  else if s.j < s.size - s.i - 1 then do
    let x ← rd s.arr s.j
    let y ← rd s.arr (s.j + 1)
    if x > y then do
      let temp ← rd s.arr s.j
      let v ← rd s.arr (s.j + 1)
      let a1 ← wr s.arr s.j v
      let a2 ← wr a1 (s.j + 1) temp
      pure { s with arr := a2, j := s.j + 1 }
    else
      pure { s with j := s.j + 1 }
  else
    some { s with j := 0, i := s.i + 1 }

end BubbleSort

/-! ## InsertionSort (main.cpp 119-162) -/

structure InsertionSort where
  arr : List Int
  size : Int
  i : Int
  j : Int
  key : Int
  holdingKey : Bool
deriving DecidableEq, Repr

namespace InsertionSort

/-- Constructor `InsertionSort()`: `arr(nullptr), size(0), i(1), j(0),
holdingKey(false)`; `key` is left uninitialised, so it is a parameter. -/
def new (key0 : Int) : InsertionSort :=
  { arr := [], size := 0, i := 1, j := 0, key := key0, holdingKey := false }

/-- The body of `reset`: `key` is not assigned and keeps its previous value. -/
def reset (s : InsertionSort) (array : List Int) (sz : Int) : InsertionSort :=
  { s with arr := array, size := sz, i := 1, j := 0, holdingKey := false }

def activeIndex (s : InsertionSort) : Int := s.j

def isSorted (s : InsertionSort) : Bool := decide (s.i ≥ s.size)

/-- The block `if (!holdingKey) { key = arr[i]; j = i - 1; holdingKey = true; }`. -/
def capture (s : InsertionSort) : Option InsertionSort :=
  if !s.holdingKey then do
    let k ← rd s.arr s.i
    pure { s with key := k, j := s.i - 1, holdingKey := true }
  else
    pure s

/-- The condition `j >= 0 && arr[j] > key`, with the short-circuit of `&&`. -/
def shiftCond (s : InsertionSort) : Option Bool :=
  if s.j ≥ 0 then do
    let x ← rd s.arr s.j
    pure (decide (x > s.key))
  else
    pure false

/-- The block `if (j >= 0 && arr[j] > key) { shift } else { place }`. -/
def shiftOrPlace (s : InsertionSort) : Option InsertionSort := do
  let c ← shiftCond s
  if c then do
    let x ← rd s.arr s.j
    let a ← wr s.arr (s.j + 1) x
    pure { s with arr := a, j := s.j - 1 }
  else do
    let a ← wr s.arr (s.j + 1) s.key
    pure { s with arr := a, holdingKey := false, i := s.i + 1 }

def step (s : InsertionSort) : Option InsertionSort :=
  if s.isSorted then some s
  else (capture s).bind shiftOrPlace

end InsertionSort

/-! ## SelectionSort (main.cpp 164-206) -/

structure SelectionSort where
  arr : List Int
  size : Int
  i : Int
  j : Int
  minIndex : Int
deriving DecidableEq, Repr

namespace SelectionSort

/-- Constructor `SelectionSort()`: `arr(nullptr), size(0), i(0), j(1), minIndex(0)`. -/
def new : SelectionSort := { arr := [], size := 0, i := 0, j := 1, minIndex := 0 }

def reset (_s : SelectionSort) (array : List Int) (sz : Int) : SelectionSort :=
  { arr := array, size := sz, i := 0, j := 1, minIndex := 0 }

def activeIndex (s : SelectionSort) : Int := s.i

def isSorted (s : SelectionSort) : Bool := decide (s.i ≥ s.size - 1)

def step (s : SelectionSort) : Option SelectionSort :=
  if s.isSorted then some s
  else if s.i < s.size - 1 then
    if s.j < s.size then do
      let x ← rd s.arr s.j
      let m ← rd s.arr s.minIndex
      if x < m then
        pure { s with minIndex := s.j, j := s.j + 1 }
      else
        pure { s with j := s.j + 1 }
    else do
      let temp ← rd s.arr s.i
      let m ← rd s.arr s.minIndex
      let a1 ← wr s.arr s.i m
      let a2 ← wr a1 s.minIndex temp
      pure { s with arr := a2, i := s.i + 1, minIndex := s.i + 1, j := s.i + 1 + 1 }
  else
    some s

end SelectionSort

/-! ## GnomeSort (main.cpp 208-245) -/

structure GnomeSort where
  arr : List Int
  size : Int
  index : Int
deriving DecidableEq, Repr

namespace GnomeSort

/-- Constructor `GnomeSort()`: `arr(nullptr), size(0), index(1)`. -/
def new : GnomeSort := { arr := [], size := 0, index := 1 }

def reset (_s : GnomeSort) (array : List Int) (sz : Int) : GnomeSort :=
  { arr := array, size := sz, index := 1 }

def activeIndex (s : GnomeSort) : Int := s.index

def isSorted (s : GnomeSort) : Bool := decide (s.index ≥ s.size)

def step (s : GnomeSort) : Option GnomeSort :=
  if s.isSorted then some s
  else if s.index = 0 then some { s with index := 1 }
  else do
    let x ← rd s.arr s.index
    let y ← rd s.arr (s.index - 1)
    if x ≥ y then
      pure { s with index := s.index + 1 }
    else do
      let temp ← rd s.arr s.index
      let v ← rd s.arr (s.index - 1)
      let a1 ← wr s.arr s.index v
      let a2 ← wr a1 (s.index - 1) temp
      pure { s with arr := a2, index := s.index - 1 }

end GnomeSort

/-! ## BogoSort (main.cpp 247-286) -/

structure BogoSort where
  arr : List Int
  size : Int
deriving DecidableEq, Repr

namespace BogoSort

/-- Constructor `BogoSort()`: `arr(nullptr), size(0)`. -/
def new : BogoSort := { arr := [], size := 0 }

def reset (_s : BogoSort) (array : List Int) (sz : Int) : BogoSort :=
  { arr := array, size := sz }

def activeIndex (_s : BogoSort) : Int := 0

/-- The loop `for (i = size - 1; i > 0; i--)` of `shuffle`, entered with the
loop variable equal to the first argument; `rand i` is the value returned by
`GetRandomValue(0, i)`. -/
def shuffleLoop (rand : Int → Int) : Nat → List Int → Option (List Int)
  | 0, arr => some arr
  | i + 1, arr => do
    let j := rand ((i : Int) + 1)
    let temp ← rd arr ((i : Int) + 1)
    let v ← rd arr j
    let a1 ← wr arr ((i : Int) + 1) v
    let a2 ← wr a1 j temp
    shuffleLoop rand i a2

def shuffle (rand : Int → Int) (s : BogoSort) : Option BogoSort := do
  let a ← shuffleLoop rand (s.size - 1).toNat s.arr
  pure { s with arr := a }

/-- The loop `for (i = 0; i < size - 1; i++) if (arr[i] > arr[i+1]) return false;`
entered at loop variable `i`; the first argument bounds the number of
iterations, and running out of it before the loop ends gives `none`. -/
def scan (arr : List Int) (size : Int) : Nat → Int → Option Bool
  | 0, i => if i < size - 1 then none else some true
  | fuel + 1, i =>
    if i < size - 1 then do
      let x ← rd arr i
      let y ← rd arr (i + 1)
      if x > y then pure false else scan arr size fuel (i + 1)
    else
      some true

def isSorted (s : BogoSort) : Option Bool :=
  scan s.arr s.size (s.size - 1).toNat 0

def step (rand : Int → Int) (s : BogoSort) : Option BogoSort := do
  let b ← isSorted s
  if b then pure s else shuffle rand s

/-- Run the steps whose draws are listed in `rs`, first to last. -/
def run : List (Int → Int) → BogoSort → Option BogoSort
  | [], s => some s
  | r :: rs, s => (step r s).bind (run rs)

end BogoSort

/-! ## MiracleSort (main.cpp 288-313) -/

structure MiracleSort where
  arr : List Int
  size : Int
deriving DecidableEq, Repr

namespace MiracleSort

/-- Constructor `MiracleSort()`: `arr(nullptr), size(0)`. -/
def new : MiracleSort := { arr := [], size := 0 }

def reset (_s : MiracleSort) (array : List Int) (sz : Int) : MiracleSort :=
  { arr := array, size := sz }

def activeIndex (_s : MiracleSort) : Int := 0

def isSorted (_s : MiracleSort) : Bool := true

def step (s : MiracleSort) : Option MiracleSort := some s

end MiracleSort

/-! ## Specification vocabulary -/

/-- The element at position `k` (0 outside the list). -/
def nth (a : List Int) (k : Nat) : Int := a.getD k 0

/-- Triangular numbers: `tri m = 1 + 2 + ... + m`. -/
def tri : Nat → Nat
  | 0 => 0
  | m + 1 => tri m + (m + 1)

/-- Number of inversions: pairs of positions `p < q` with `a[p] > a[q]`. -/
def inv : List Int → Nat
  | [] => 0
  | x :: xs => xs.countP (fun y => decide (y < x)) + inv xs

/-- States reachable from `init` by some number of calls of `f`. -/
def Reach {S : Type} (f : S → Option S) (init : S) (s : S) : Prop :=
  ∃ k, iter f k init = some s

namespace BubbleSort

/-- Number of `step` calls still to come before `isSorted` holds. -/
def pot (s : BubbleSort) : Nat :=
  (s.size - 1 - s.i - s.j).toNat + tri (s.size - 1 - s.i).toNat

/-- Invariant of the machine: the indices are in range, the last `i` cells hold
the `i` largest elements in order, and `arr[j]` is a maximum of `arr[0..j]`. -/
def Inv (s : BubbleSort) : Prop :=
  ∃ i j : Nat, s.i = i ∧ s.j = j ∧ s.size = s.arr.length ∧
    (i + j + 1 ≤ s.arr.length ∨ (i = 0 ∧ j = 0 ∧ s.arr.length = 0)) ∧
    (∀ p q, p ≤ q → q < s.arr.length → s.arr.length ≤ q + i →
      nth s.arr p ≤ nth s.arr q) ∧
    (∀ p, p ≤ j → nth s.arr p ≤ nth s.arr j)

end BubbleSort

namespace SelectionSort

/-- Number of `step` calls still to come before `isSorted` holds. -/
def pot (s : SelectionSort) : Nat :=
  (s.size - s.j).toNat + tri (s.size - 1 - s.i).toNat

/-- Invariant of the machine: the indices are in range, the first `i` cells hold
the `i` smallest elements in order, and `arr[minIndex]` is a minimum of
`arr[i..j-1]`. -/
def Inv (s : SelectionSort) : Prop :=
  ∃ i j m : Nat, s.i = i ∧ s.j = j ∧ s.minIndex = m ∧ s.size = s.arr.length ∧
    ((i + 1 ≤ j ∧ j ≤ s.arr.length ∧ i ≤ m ∧ m < j)
      ∨ (s.arr.length = 0 ∧ i = 0 ∧ j = 1 ∧ m = 0)) ∧
    (∀ p q, p < i → p ≤ q → q < s.arr.length → nth s.arr p ≤ nth s.arr q) ∧
    (∀ k, i ≤ k → k < j → nth s.arr m ≤ nth s.arr k)

end SelectionSort

namespace GnomeSort

/-- Number of `step` calls still to come before `isSorted` holds. -/
def pot (s : GnomeSort) : Nat :=
  2 * inv s.arr + (s.size - s.index).toNat

/-- Invariant of the machine: `index` is in range and `arr[0..index-1]` is
non-descending. -/
def Inv (s : GnomeSort) : Prop :=
  ∃ k : Nat, s.index = k ∧ s.size = s.arr.length ∧
    (k ≤ s.arr.length ∨ (s.arr.length = 0 ∧ k = 1)) ∧
    (∀ p q, p ≤ q → q < k → nth s.arr p ≤ nth s.arr q)

end GnomeSort

namespace InsertionSort

/-- The sequence with the held key put back into the free cell `j + 1`. -/
def logical (s : InsertionSort) : List Int :=
  if s.holdingKey then s.arr.set (s.j + 1).toNat s.key else s.arr

/-- Number of `step` calls still to come before `isSorted` holds. -/
def pot (s : InsertionSort) : Nat :=
  inv (logical s) + (s.size - s.i).toNat

/-- Invariant between two insertions: `arr[0..i-1]` is non-descending. -/
def InvN (s : InsertionSort) : Prop :=
  s.holdingKey = false ∧ ∃ i : Nat, s.i = i ∧ s.size = s.arr.length ∧ 1 ≤ i ∧
    (i ≤ s.arr.length ∨ (s.arr.length = 0 ∧ i = 1)) ∧ -1 ≤ s.j ∧ s.j + 1 ≤ i ∧
    (∀ p q, p ≤ q → q < i → nth s.arr p ≤ nth s.arr q)

/-- Invariant during an insertion: cell `h = j + 1` is free, the other cells of
`arr[0..i]` are non-descending and those right of the free cell exceed the key. -/
def InvH (s : InsertionSort) : Prop :=
  s.holdingKey = true ∧ ∃ i h : Nat, s.i = i ∧ s.j + 1 = h ∧ s.size = s.arr.length ∧
    1 ≤ i ∧ i < s.arr.length ∧ h ≤ i ∧
    (∀ p q, p ≤ q → q ≤ i → p ≠ h → q ≠ h → nth s.arr p ≤ nth s.arr q) ∧
    (∀ q, h < q → q ≤ i → s.key < nth s.arr q)

def Inv (s : InsertionSort) : Prop := InvN s ∨ InvH s

end InsertionSort

/-- The draws of one shuffle are valid when the value standing for
`GetRandomValue(0, i)` lies in `0 .. i` for every loop index `i > 0`. -/
def ValidDraw (r : Int → Int) : Prop := ∀ i : Int, 0 < i → 0 ≤ r i ∧ r i ≤ i

namespace BogoSort

/-- States reachable from `init` by `step` calls made under valid draws. -/
def Reachable (init s : BogoSort) : Prop :=
  ∃ rs : List (Int → Int), (∀ r ∈ rs, ValidDraw r) ∧ run rs init = some s

end BogoSort

namespace InsertionSort

/-- What a caller can observe of the strategy: the bound sequence,
`activeIndex()` and `isSorted()`. -/
def observe (s : InsertionSort) : List Int × Int × Bool :=
  (s.arr, s.activeIndex, s.isSorted)

/-- Two states that agree on every field except a `key` that is not held. -/
def Sim (s t : InsertionSort) : Prop :=
  s.arr = t.arr ∧ s.size = t.size ∧ s.i = t.i ∧ s.j = t.j ∧
    s.holdingKey = t.holdingKey ∧ (s.holdingKey = true → s.key = t.key)

end InsertionSort

/-- The exchange `temp = a[i]; a[i] = a[j]; a[j] = temp` on a sequence. -/
def swapCells (a : List Int) (i j : Nat) : List Int :=
  (a.set i (nth a j)).set j (nth a i)

/-- The Fisher-Yates pass as the specification words it: for `i` running from
the first argument down to `1`, exchange `arr[i]` with `arr[r i]`. -/
def fisherYates (r : Int → Int) : Nat → List Int → List Int
  | 0, a => a
  | i + 1, a => fisherYates r i (swapCells a (i + 1) (r ((i : Int) + 1)).toNat)

/-- The gate of the driver loop (main.cpp 403-408): `step()` is called only when
the loop is not paused, `isSorted()` is false and the step timer is due; `due`
stands for the comparison `stepTimer >= stepDelay`. -/
def driverCallsStep (paused due sorted : Bool) : Bool :=
  !paused && (!sorted && due)

/-! ## Lemmas on lists and memory access -/

theorem rd_nat (a : List Int) (k : Nat) (h : k < a.length) :
    rd a (k : Int) = some (nth a k) := by
  simp [rd, nth, List.getElem?_eq_getElem h]

theorem rd_nat_succ (a : List Int) (k : Nat) (h : k + 1 < a.length) :
    rd a ((k : Int) + 1) = some (nth a (k + 1)) := by
  have := rd_nat a (k + 1) h
  simpa using this

theorem wr_nat (a : List Int) (k : Nat) (v : Int) (h : k < a.length) :
    wr a (k : Int) v = some (a.set k v) := by
  simp [wr, h]

theorem wr_nat_succ (a : List Int) (k : Nat) (v : Int) (h : k + 1 < a.length) :
    wr a ((k : Int) + 1) v = some (a.set (k + 1) v) := by
  have := wr_nat a (k + 1) v h
  simpa using this

theorem nth_set (a : List Int) (k m : Nat) (v : Int) :
    nth (a.set k v) m = if m = k ∧ k < a.length then v else nth a m := by
  unfold nth
  simp only [List.getD_eq_getElem?_getD, List.getElem?_set]
  by_cases h : k = m
  · subst h
    by_cases h2 : k < a.length
    · simp [h2]
    · simp [h2, List.getElem?_eq_none (not_lt.mp h2)]
  · have h3 : ¬ m = k := fun e => h e.symm
    simp [h, h3]

theorem nth_cons_succ (x : Int) (a : List Int) (k : Nat) : nth (x :: a) (k + 1) = nth a k := by
  simp [nth]

theorem nth_cons_zero (x : Int) (a : List Int) : nth (x :: a) 0 = x := by
  simp [nth]

theorem sorted_of_nth (a : List Int)
    (h : ∀ p q, p < q → q < a.length → nth a p ≤ nth a q) : a.Sorted (· ≤ ·) := by
  unfold List.Sorted
  rw [List.pairwise_iff_getElem]
  intro p q hp hq hpq
  have := h p q hpq hq
  simpa [nth, List.getElem?_eq_getElem hp, List.getElem?_eq_getElem hq] using this

theorem nth_of_sorted (a : List Int) (h : a.Sorted (· ≤ ·)) :
    ∀ p q, p ≤ q → q < a.length → nth a p ≤ nth a q := by
  intro p q hpq hq
  rcases Nat.eq_or_lt_of_le hpq with e | hlt
  · subst e; exact le_refl _
  · unfold List.Sorted at h
    rw [List.pairwise_iff_getElem] at h
    have hp : p < a.length := lt_trans hlt hq
    have := h p q hp hq hlt
    simpa [nth, List.getElem?_eq_getElem hp, List.getElem?_eq_getElem hq] using this

/-- Writing `a[k+1]` into cell `k` and then the old `a[k]` into cell `k+1`
exchanges the two adjacent elements. -/
theorem swap_up (a : List Int) (k : Nat) (h : k + 1 < a.length) :
    ∃ pre post, a = pre ++ nth a k :: nth a (k + 1) :: post ∧ pre.length = k ∧
      (a.set k (nth a (k + 1))).set (k + 1) (nth a k)
        = pre ++ nth a (k + 1) :: nth a k :: post := by
  induction k generalizing a with
  | zero =>
    match a, h with
    | x :: y :: r, _ => exact ⟨[], r, by simp [nth], rfl, by simp [nth]⟩
  | succ k ih =>
    match a, h with
    | x :: r, h =>
      have h2 : k + 1 < r.length := by simpa using h
      obtain ⟨pre, post, e1, e2, e3⟩ := ih r h2
      refine ⟨x :: pre, post, ?_, by simp [e2], ?_⟩
      · simp only [nth_cons_succ, List.cons_append]
        rw [← e1]
      · simp only [nth_cons_succ, List.set_cons_succ, List.cons_append]
        rw [e3]

/-- The same exchange with the two writes in the other order. -/
theorem swap_down (a : List Int) (k : Nat) :
    (a.set (k + 1) (nth a k)).set k (nth a (k + 1))
      = (a.set k (nth a (k + 1))).set (k + 1) (nth a k) := by
  rw [List.set_comm]
  omega

/-- Contents of the list after the exchange of cells `k` and `k+1`. -/
theorem nth_swap (a : List Int) (k : Nat) (h : k + 1 < a.length) :
    nth ((a.set k (nth a (k + 1))).set (k + 1) (nth a k)) k = nth a (k + 1) ∧
    nth ((a.set k (nth a (k + 1))).set (k + 1) (nth a k)) (k + 1) = nth a k ∧
    ∀ m, m ≠ k → m ≠ k + 1 →
      nth ((a.set k (nth a (k + 1))).set (k + 1) (nth a k)) m = nth a m := by
  have h0 : k < a.length := by omega
  refine ⟨?_, ?_, ?_⟩
  · simp [nth_set, h0]
  · simp [nth_set, h]
  · intro m h1 h2
    simp [nth_set, h1, h2]

theorem tri_le_sq (m : Nat) : tri m ≤ m * m := by
  induction m with
  | zero => simp [tri]
  | succ m ih => simp only [tri]; nlinarith

theorem inv_le (a : List Int) : inv a ≤ tri (a.length - 1) := by
  induction a with
  | nil => simp [inv, tri]
  | cons x xs ih =>
    have h1 : xs.countP (fun y => decide (y < x)) ≤ xs.length := List.countP_le_length _
    cases xs with
    | nil => simp [inv, tri]
    | cons y ys =>
      simp only [List.length_cons, Nat.add_sub_cancel] at ih h1 ⊢
      simp only [inv] at ih ⊢
      simp only [tri]
      omega

/-- Exchanging an adjacent pair that is out of order removes exactly one inversion. -/
theorem inv_swap (pre post : List Int) (x y : Int) (h : y < x) :
    inv (pre ++ y :: x :: post) + 1 = inv (pre ++ x :: y :: post) := by
  induction pre with
  | nil =>
    have h2 : ¬ x < y := not_lt.mpr (le_of_lt h)
    simp [inv, List.countP_cons, h, h2]
    omega
  | cons z pre ih =>
    have hc : (pre ++ y :: x :: post).countP (fun w => decide (w < z))
        = (pre ++ x :: y :: post).countP (fun w => decide (w < z)) := by
      simp only [List.countP_append, List.countP_cons]
      omega
    have e1 : inv (z :: pre ++ y :: x :: post)
        = (pre ++ y :: x :: post).countP (fun w => decide (w < z))
          + inv (pre ++ y :: x :: post) := rfl
    have e2 : inv (z :: pre ++ x :: y :: post)
        = (pre ++ x :: y :: post).countP (fun w => decide (w < z))
          + inv (pre ++ x :: y :: post) := rfl
    rw [e1, e2, hc]
    omega

/-- A non-descending list has no inversion. -/
theorem inv_of_sorted (a : List Int) (h : a.Sorted (· ≤ ·)) : inv a = 0 := by
  induction a with
  | nil => rfl
  | cons x xs ih =>
    have h1 := List.sorted_cons.mp h
    have h2 : xs.countP (fun y => decide (y < x)) = 0 := by
      rw [List.countP_eq_zero]
      intro y hy
      have := h1.1 y hy
      simp only [decide_eq_true_eq, not_lt]
      exact this
    simp [inv, h2, ih h1.2]

/-! ## Running a machine with a step counter -/

theorem iter_add {S : Type} (f : S → Option S) (k m : Nat) (s : S) :
    iter f (k + m) s = (iter f k s).bind (iter f m) := by
  induction k generalizing s with
  | zero => simp [iter]
  | succ k ih =>
    rw [Nat.succ_add]
    simp only [iter]
    cases f s with
    | none => rfl
    | some t => simpa using ih t

theorem iter_succ_right {S : Type} (f : S → Option S) (k : Nat) (s : S) :
    iter f (k + 1) s = (iter f k s).bind f := by
  rw [iter_add]
  congr 1
  funext t
  simp [iter]

/-- An invariant kept by every step holds in every reachable state, and the run
never fails. -/
theorem iter_inv {S : Type} (f : S → Option S) (I : S → Prop)
    (hstep : ∀ s, I s → ∃ t, f s = some t ∧ I t) :
    ∀ (k : Nat) (s : S), I s → ∃ t, iter f k s = some t ∧ I t := by
  intro k
  induction k with
  | zero => intro s hs; exact ⟨s, rfl, hs⟩
  | succ k ih =>
    intro s hs
    obtain ⟨t, e, ht⟩ := hstep s hs
    obtain ⟨u, e2, hu⟩ := ih t ht
    exact ⟨u, by simp [iter, e, e2], hu⟩

theorem reach_inv {S : Type} (f : S → Option S) (I : S → Prop)
    (hstep : ∀ s, I s → ∃ t, f s = some t ∧ I t) (init s : S) (h0 : I init)
    (hr : Reach f init s) : I s := by
  obtain ⟨k, hk⟩ := hr
  obtain ⟨t, e, ht⟩ := iter_inv f I hstep k init h0
  rw [hk] at e
  cases e
  exact ht

/-- A machine whose potential `μ` drops by exactly one at every step taken in a
state that is not terminal reaches a terminal state, for the first time, after
exactly `μ init - μ final` steps. -/
theorem iter_reach {S : Type} (f : S → Option S) (done : S → Bool) (I : S → Prop)
    (μ : S → Nat)
    (hstep : ∀ s, I s → done s = false → ∃ t, f s = some t ∧ I t ∧ μ t + 1 = μ s) :
    ∀ (m : Nat) (s : S), I s → μ s = m →
      ∃ k t, iter f k s = some t ∧ done t = true ∧ I t ∧ k + μ t = m ∧
        ∀ k2, k2 < k → ∃ u, iter f k2 s = some u ∧ done u = false := by
  intro m
  induction m with
  | zero =>
    intro s hs hm
    cases hd : done s with
    | true => exact ⟨0, s, rfl, hd, hs, by simpa using hm, by intro k2 h; omega⟩
    | false =>
      obtain ⟨t, _, _, h3⟩ := hstep s hs hd
      omega
  | succ m ih =>
    intro s hs hm
    cases hd : done s with
    | true => exact ⟨0, s, rfl, hd, hs, by simpa using hm, by intro k2 h; omega⟩
    | false =>
      obtain ⟨t, e, ht, h3⟩ := hstep s hs hd
      obtain ⟨k, u, e2, hdu, hu, hk, hfirst⟩ := ih t ht (by omega)
      refine ⟨k + 1, u, by simp [iter, e, e2], hdu, hu, by omega, ?_⟩
      intro k2 hk2
      cases k2 with
      | zero => exact ⟨s, rfl, hd⟩
      | succ k2 =>
        obtain ⟨v, e3, hv⟩ := hfirst k2 (by omega)
        exact ⟨v, by simp [iter, e, e3], hv⟩

/-! ## BubbleSort: invariant and potential -/

namespace BubbleSort

theorem bubble_inv_reset (s0 : BubbleSort) (a : List Int) : Inv (reset s0 a a.length) := by
  refine ⟨0, 0, rfl, rfl, rfl, ?_, ?_, ?_⟩
  · show 0 + 0 + 1 ≤ a.length ∨ (0 = 0 ∧ 0 = 0 ∧ a.length = 0)
    omega
  · intro p q h1 h2 h3
    have h4 : q < a.length := h2
    have h5 : a.length ≤ q + 0 := h3
    omega
  · intro p hp
    have : p = 0 := by omega
    subst this
    exact le_refl _

theorem bubble_step_spec (s : BubbleSort) (h : Inv s) :
    ∃ t, step s = some t ∧ Inv t ∧ (isSorted s = true → t = s) ∧
      (isSorted s = false → pot t + 1 = pot s) ∧
      (t.arr = s.arr ∨ ∃ pre x y post,
        s.arr = pre ++ x :: y :: post ∧ t.arr = pre ++ y :: x :: post) := by
  obtain ⟨a, n, si, sj⟩ := s
  obtain ⟨i, j, hi, hj, hn, hb, P1, P2⟩ := h
  simp only at hi hj hn hb P1 P2
  subst hi hj hn
  by_cases hs : ((i : Int) ≥ (a.length : Int) - 1)
  · refine ⟨_, by simp [step, isSorted, hs], ⟨i, j, rfl, rfl, rfl, hb, P1, P2⟩,
      fun _ => rfl, ?_, Or.inl rfl⟩
    intro h2
    simp [isSorted, hs] at h2
  · have hns : isSorted ⟨a, a.length, i, j⟩ = false := by simp [isSorted, hs]
    by_cases hlt : ((j : Int) < (a.length : Int) - i - 1)
    · have hj1 : j + 1 < a.length := by omega
      have hj0 : j < a.length := by omega
      have hpot : ∀ b : List Int,
          pot ⟨b, a.length, i, (j : Int) + 1⟩ + 1 = pot ⟨a, a.length, i, j⟩ := by
        intro b
        simp only [pot]
        omega
      by_cases hgt : nth a j > nth a (j + 1)
      · have e : step ⟨a, a.length, i, j⟩
            = some ⟨(a.set j (nth a (j + 1))).set (j + 1) (nth a j), a.length, i,
                (j : Int) + 1⟩ := by
          have hw := wr_nat_succ (a.set j (nth a (j + 1))) j (nth a j) (by simpa using hj1)
          simp [step, hns, hlt, rd_nat a j hj0, rd_nat_succ a j hj1, hgt, wr_nat a j _ hj0, hw]
        obtain ⟨hB, hC, hA⟩ := nth_swap a j hj1
        refine ⟨_, e, ⟨i, j + 1, rfl, by simp, by simp, Or.inl (by simp; omega), ?_, ?_⟩,
          fun h2 => by simp [hns] at h2, fun _ => hpot _, Or.inr ?_⟩
        · intro p q hpq hq hqi
          simp only [List.length_set] at hq hqi
          simp only
          rw [hA q (by omega) (by omega)]
          by_cases hp1 : p = j + 1
          · rw [hp1, hC]
            exact P1 j q (by omega) hq hqi
          · by_cases hp2 : p = j
            · rw [hp2, hB]
              exact P1 (j + 1) q (by omega) hq hqi
            · rw [hA p hp2 hp1]
              exact P1 p q hpq hq hqi
        · intro p hp
          simp only
          rw [hC]
          by_cases hp1 : p = j + 1
          · rw [hp1, hC]
          · by_cases hp2 : p = j
            · rw [hp2, hB]
              exact le_of_lt hgt
            · rw [hA p hp2 hp1]
              exact P2 p (by omega)
        · obtain ⟨pre, post, e1, _, e3⟩ := swap_up a j hj1
          exact ⟨pre, nth a j, nth a (j + 1), post, e1, e3⟩
      · have e : step ⟨a, a.length, i, j⟩ = some ⟨a, a.length, i, (j : Int) + 1⟩ := by
          simp [step, hns, hlt, rd_nat a j hj0, rd_nat_succ a j hj1, hgt]
        refine ⟨_, e, ⟨i, j + 1, rfl, by simp, by simp, Or.inl (by simp; omega), P1, ?_⟩,
          fun h2 => by simp [hns] at h2, fun _ => hpot _, Or.inl rfl⟩
        intro p hp
        simp only
        by_cases hp1 : p = j + 1
        · subst hp1; exact le_refl _
        · exact le_trans (P2 p (by omega)) (not_lt.mp hgt)
    · have e : step ⟨a, a.length, i, j⟩ = some ⟨a, a.length, (i : Int) + 1, 0⟩ := by
        simp [step, hns, hlt]
      have hij : i + j + 1 = a.length := by omega
      refine ⟨_, e, ⟨i + 1, 0, by simp, by simp, by simp, Or.inl (by simp; omega), ?_, ?_⟩,
        fun h2 => by simp [hns] at h2, ?_, Or.inl rfl⟩
      · intro p q hpq hq hqi
        simp only at hq hqi ⊢
        by_cases hqj : q = j
        · subst hqj; exact P2 p hpq
        · exact P1 p q hpq hq (by omega)
      · intro p hp
        have : p = 0 := by omega
        subst this
        exact le_refl _
      · intro _
        obtain ⟨r, hr⟩ : ∃ r, a.length = i + r + 2 := ⟨a.length - i - 2, by omega⟩
        have e1 : ((a.length : Int) - 1 - ((i : Int) + 1)).toNat = r := by omega
        have e2 : ((a.length : Int) - 1 - (i : Int)).toNat = r + 1 := by omega
        have e3 : ((a.length : Int) - 1 - ((i : Int) + 1) - 0).toNat = r := by omega
        have e4 : ((a.length : Int) - 1 - (i : Int) - (j : Int)).toNat = 0 := by omega
        simp only [pot, e1, e2, e3, e4, tri]
        omega

theorem bubble_sorted_of_done (s : BubbleSort) (h : Inv s) (hd : isSorted s = true) :
    s.arr.Sorted (· ≤ ·) := by
  obtain ⟨i, j, hi, hj, hn, hb, P1, P2⟩ := h
  apply sorted_of_nth
  intro p q hpq hq
  apply P1 p q (le_of_lt hpq) hq
  simp only [isSorted, decide_eq_true_eq] at hd
  omega

theorem bubble_pot_reset (s0 : BubbleSort) (a : List Int) :
    pot (reset s0 a a.length) = tri (a.length - 1) + (a.length - 1) := by
  have e1 : ((a.length : Int) - 1 - 0 - 0).toNat = a.length - 1 := by omega
  have e2 : ((a.length : Int) - 1 - 0).toNat = a.length - 1 := by omega
  simp only [pot, reset, e1, e2]
  omega

theorem bubble_pot_done (s : BubbleSort) (h : Inv s) (hd : isSorted s = true) : pot s = 0 := by
  obtain ⟨i, j, hi, hj, hn, hb, P1, P2⟩ := h
  simp only [isSorted, decide_eq_true_eq] at hd
  have e1 : (s.size - 1 - s.i - s.j).toNat = 0 := by omega
  have e2 : (s.size - 1 - s.i).toNat = 0 := by omega
  simp [pot, e1, e2, tri]

end BubbleSort

/-! ## SelectionSort: invariant and potential -/

/-- Contents of the list after `a[i] = a[m]; a[m] = old a[i]`. -/
theorem nth_exchange (a : List Int) (i m : Nat) (hi : i < a.length) (hm : m < a.length) :
    nth ((a.set i (nth a m)).set m (nth a i)) i = nth a m ∧
    nth ((a.set i (nth a m)).set m (nth a i)) m = nth a i ∧
    ∀ k, k ≠ i → k ≠ m → nth ((a.set i (nth a m)).set m (nth a i)) k = nth a k := by
  refine ⟨?_, ?_, ?_⟩
  · by_cases e : i = m
    · subst e; simp [nth_set, hi]
    · simp [nth_set, hi, e]
  · simp [nth_set, hm]
  · intro k h1 h2
    simp [nth_set, h1, h2]

namespace SelectionSort

theorem selection_inv_reset (s0 : SelectionSort) (a : List Int) : Inv (reset s0 a a.length) := by
  refine ⟨0, 1, 0, rfl, rfl, rfl, rfl, ?_, ?_, ?_⟩
  · show (0 + 1 ≤ 1 ∧ 1 ≤ a.length ∧ 0 ≤ 0 ∧ 0 < 1) ∨ (a.length = 0 ∧ 0 = 0 ∧ 1 = 1 ∧ 0 = 0)
    omega
  · intro p q h1 _ _
    omega
  · intro k h1 h2
    have : k = 0 := by omega
    subst this
    exact le_refl _

theorem selection_step_spec (s : SelectionSort) (h : Inv s) :
    ∃ t, step s = some t ∧ Inv t ∧ (isSorted s = true → t = s) ∧
      (isSorted s = false → pot t + 1 = pot s) ∧ t.arr.length = s.arr.length := by
  obtain ⟨a, n, si, sj, sm⟩ := s
  obtain ⟨i, j, m, hi, hj, hm, hn, hb, P1, P2⟩ := h
  simp only at hi hj hm hn hb P1 P2
  subst hi hj hm hn
  by_cases hs : ((i : Int) ≥ (a.length : Int) - 1)
  · refine ⟨_, by simp [step, isSorted, hs], ⟨i, j, m, rfl, rfl, rfl, rfl, hb, P1, P2⟩,
      fun _ => rfl, ?_, rfl⟩
    intro h2
    simp [isSorted, hs] at h2
  · have hns : isSorted ⟨a, a.length, i, j, m⟩ = false := by simp [isSorted, hs]
    have hi1 : (i : Int) < (a.length : Int) - 1 := by omega
    have hb2 : i + 1 ≤ j ∧ j ≤ a.length ∧ i ≤ m ∧ m < j := by omega
    obtain ⟨hb_ij, hb_j, hb_im, hb_mj⟩ := hb2
    have hm0 : m < a.length := by omega
    have hi0 : i < a.length := by omega
    by_cases hlt : ((j : Int) < (a.length : Int))
    · have hj0 : j < a.length := by omega
      have hpot : ∀ (b : List Int) (m2 : Int),
          pot ⟨b, a.length, i, (j : Int) + 1, m2⟩ + 1 = pot ⟨a, a.length, i, j, m⟩ := by
        intro b m2
        simp only [pot]
        omega
      by_cases hcmp : nth a j < nth a m
      · have e : step ⟨a, a.length, i, j, m⟩
            = some ⟨a, a.length, i, (j : Int) + 1, j⟩ := by
          simp [step, hns, hi1, hlt, rd_nat a j hj0, rd_nat a m hm0, hcmp]
        refine ⟨_, e, ⟨i, j + 1, j, rfl, by simp, rfl, rfl, Or.inl (by simp; omega), P1, ?_⟩,
          fun h2 => by simp [hns] at h2, fun _ => hpot _ _, rfl⟩
        intro k hk1 hk2
        simp only
        by_cases hkj : k = j
        · subst hkj; exact le_refl _
        · exact le_trans (le_of_lt hcmp) (P2 k hk1 (by omega))
      · have e : step ⟨a, a.length, i, j, m⟩
            = some ⟨a, a.length, i, (j : Int) + 1, m⟩ := by
          simp [step, hns, hi1, hlt, rd_nat a j hj0, rd_nat a m hm0, hcmp]
        refine ⟨_, e, ⟨i, j + 1, m, rfl, by simp, rfl, rfl, Or.inl (by simp; omega), P1, ?_⟩,
          fun h2 => by simp [hns] at h2, fun _ => hpot _ _, rfl⟩
        intro k hk1 hk2
        simp only
        by_cases hkj : k = j
        · subst hkj; exact not_lt.mp hcmp
        · exact P2 k hk1 (by omega)
    · have hjn : j = a.length := by omega
      have e : step ⟨a, a.length, i, j, m⟩
          = some ⟨(a.set i (nth a m)).set m (nth a i), a.length, (i : Int) + 1,
              (i : Int) + 1 + 1, (i : Int) + 1⟩ := by
        have hw := wr_nat (a.set i (nth a m)) m (nth a i) (by simpa using hm0)
        simp [step, hns, hi1, hlt, rd_nat a i hi0, rd_nat a m hm0, wr_nat a i _ hi0, hw]
      obtain ⟨hI, hM, hA⟩ := nth_exchange a i m hi0 hm0
      have hall : ∀ q, i ≤ q → q < a.length →
          nth a m ≤ nth ((a.set i (nth a m)).set m (nth a i)) q := by
        intro q hq1 hq2
        by_cases hqm : q = m
        · rw [hqm, hM]; exact P2 i (le_refl _) (by omega)
        · by_cases hqi : q = i
          · rw [hqi, hI]
          · rw [hA q hqi hqm]; exact P2 q hq1 (by omega)
      refine ⟨_, e, ⟨i + 1, i + 1 + 1, i + 1, by simp, by simp, by simp, by simp,
        Or.inl (by simp; omega), ?_, ?_⟩, fun h2 => by simp [hns] at h2, ?_, by simp⟩
      · intro p q hp hpq hq
        simp only [List.length_set] at hq
        simp only
        by_cases hpi : p = i
        · rw [hpi, hI]
          exact hall q (by omega) hq
        · have hp2 : p < i := by omega
          rw [hA p hpi (by omega)]
          by_cases hqm : q = m
          · rw [hqm, hM]; exact P1 p i hp2 (by omega) hi0
          · by_cases hqi : q = i
            · rw [hqi, hI]; exact P1 p m hp2 (by omega) hm0
            · rw [hA q hqi hqm]; exact P1 p q hp2 hpq hq
      · intro k hk1 hk2
        have : k = i + 1 := by omega
        subst this
        exact le_refl _
      · intro _
        obtain ⟨r, hr⟩ : ∃ r, a.length = i + r + 2 := ⟨a.length - i - 2, by omega⟩
        have e1 : ((a.length : Int) - 1 - ((i : Int) + 1)).toNat = r := by omega
        have e2 : ((a.length : Int) - 1 - (i : Int)).toNat = r + 1 := by omega
        have e3 : ((a.length : Int) - ((i : Int) + 1 + 1)).toNat = r := by omega
        have e4 : ((a.length : Int) - (j : Int)).toNat = 0 := by omega
        simp only [pot, e1, e2, e3, e4, tri]
        omega

theorem selection_sorted_of_done (s : SelectionSort) (h : Inv s) (hd : isSorted s = true) :
    s.arr.Sorted (· ≤ ·) := by
  obtain ⟨i, j, m, hi, hj, hm, hn, hb, P1, P2⟩ := h
  apply sorted_of_nth
  intro p q hpq hq
  apply P1 p q _ (le_of_lt hpq) hq
  simp only [isSorted, decide_eq_true_eq] at hd
  omega

theorem selection_pot_reset (s0 : SelectionSort) (a : List Int) :
    pot (reset s0 a a.length) = tri (a.length - 1) + (a.length - 1) := by
  have e1 : ((a.length : Int) - 1).toNat = a.length - 1 := by omega
  have e2 : ((a.length : Int) - 1 - 0).toNat = a.length - 1 := by omega
  simp only [pot, reset, e1, e2]
  omega

theorem selection_pot_done (s : SelectionSort) (h : Inv s) (hd : isSorted s = true) : pot s = 0 := by
  obtain ⟨i, j, m, hi, hj, hm, hn, hb, P1, P2⟩ := h
  simp only [isSorted, decide_eq_true_eq] at hd
  have e1 : (s.size - s.j).toNat = 0 := by omega
  have e2 : (s.size - 1 - s.i).toNat = 0 := by omega
  simp [pot, e1, e2, tri]

end SelectionSort

/-! ## GnomeSort: invariant and potential -/

namespace GnomeSort

theorem gnome_inv_reset (s0 : GnomeSort) (a : List Int) : Inv (reset s0 a a.length) := by
  refine ⟨1, rfl, rfl, ?_, ?_⟩
  · show 1 ≤ a.length ∨ (a.length = 0 ∧ 1 = 1)
    omega
  · intro p q h1 h2
    have : p = q := by omega
    subst this
    exact le_refl _

theorem gnome_step_spec (s : GnomeSort) (h : Inv s) :
    ∃ t, step s = some t ∧ Inv t ∧ (isSorted s = true → t = s) ∧
      (isSorted s = false → pot t + 1 = pot s) ∧
      (t.arr = s.arr ∨ ∃ pre x y post,
        s.arr = pre ++ x :: y :: post ∧ t.arr = pre ++ y :: x :: post) := by
  obtain ⟨a, n, si⟩ := s
  obtain ⟨k, hk, hn, hb, P⟩ := h
  simp only at hk hn hb P
  subst hk hn
  by_cases hs : ((k : Int) ≥ (a.length : Int))
  · refine ⟨_, by simp [step, isSorted, hs], ⟨k, rfl, rfl, hb, P⟩, fun _ => rfl, ?_,
      Or.inl rfl⟩
    intro h2
    simp [isSorted, hs] at h2
  · have hns : isSorted ⟨a, a.length, k⟩ = false := by simp [isSorted, hs]
    have hk0 : k < a.length := by omega
    have hF : ∀ t : GnomeSort, isSorted ⟨a, a.length, k⟩ = true → t = ⟨a, a.length, k⟩ := by
      intro t h2
      rw [hns] at h2
      cases h2
    cases k with
    | zero =>
      have e : step ⟨a, a.length, ((0 : Nat) : Int)⟩ = some ⟨a, a.length, 1⟩ := by
        have hle0 : ¬ ((a.length : Int) ≤ 0) := by omega
        simp [step, isSorted, hle0]
      refine ⟨_, e, ⟨1, rfl, rfl, Or.inl (by simp; omega), ?_⟩,
        hF _, ?_, Or.inl rfl⟩
      · intro p q h1 h2
        have : p = q := by omega
        subst this
        exact le_refl _
      · intro _
        simp only [pot]
        have e1 : ((a.length : Int) - 1).toNat + 1 = ((a.length : Int) - ((0 : Nat) : Int)).toNat := by
          omega
        omega
    | succ k =>
      have hk1 : k < a.length := by omega
      have hne : ¬ ((k : Int) + 1 = 0) := by omega
      have hle : ¬ ((a.length : Int) ≤ (k : Int) + 1) := by omega
      by_cases hcmp : nth a (k + 1) ≥ nth a k
      · have e : step ⟨a, a.length, ((k + 1 : Nat) : Int)⟩
            = some ⟨a, a.length, (k : Int) + 1 + 1⟩ := by
          simp [step, isSorted, hle, hne, rd_nat_succ a k hk0, rd_nat a k hk1, hcmp]
        refine ⟨_, e, ⟨k + 1 + 1, by simp, rfl, Or.inl (by simp; omega), ?_⟩,
          hF _, ?_, Or.inl rfl⟩
        · intro p q h1 h2
          simp only
          by_cases hq : q = k + 1
          · by_cases hp : p = k + 1
            · rw [hp, hq]
            · rw [hq]
              exact le_trans (P p k (by omega) (by omega)) hcmp
          · exact P p q h1 (by omega)
        · intro _
          simp only [pot]
          have e1 : ((a.length : Int) - ((k : Int) + 1 + 1)).toNat + 1
              = ((a.length : Int) - ((k + 1 : Nat) : Int)).toNat := by
            omega
          omega
      · have hlt : nth a (k + 1) < nth a k := not_le.mp hcmp
        have e : step ⟨a, a.length, ((k + 1 : Nat) : Int)⟩
            = some ⟨(a.set (k + 1) (nth a k)).set k (nth a (k + 1)), a.length, (k : Int)⟩ := by
          have hw := wr_nat (a.set (k + 1) (nth a k)) k (nth a (k + 1)) (by simpa using hk1)
          simp [step, isSorted, hle, hne, rd_nat_succ a k hk0, rd_nat a k hk1, hcmp,
            wr_nat_succ a k _ hk0, hw]
        rw [swap_down] at e
        obtain ⟨hB, hC, hA⟩ := nth_swap a k hk0
        obtain ⟨pre, post, e1, _, e3⟩ := swap_up a k hk0
        refine ⟨_, e, ⟨k, rfl, by simp, Or.inl (by simp; omega), ?_⟩,
          hF _, ?_, Or.inr ⟨pre, nth a k, nth a (k + 1), post, e1, e3⟩⟩
        · intro p q h1 h2
          simp only
          rw [hA p (by omega) (by omega), hA q (by omega) (by omega)]
          exact P p q h1 (by omega)
        · intro _
          have hinv := inv_swap pre post (nth a k) (nth a (k + 1)) hlt
          rw [← e1, ← e3] at hinv
          simp only [pot]
          have e4 : ((a.length : Int) - (k : Int)).toNat
              = ((a.length : Int) - ((k + 1 : Nat) : Int)).toNat + 1 := by
            omega
          omega

theorem gnome_sorted_of_done (s : GnomeSort) (h : Inv s) (hd : isSorted s = true) :
    s.arr.Sorted (· ≤ ·) := by
  obtain ⟨k, hk, hn, hb, P⟩ := h
  apply sorted_of_nth
  intro p q hpq hq
  apply P p q (le_of_lt hpq)
  simp only [isSorted, decide_eq_true_eq] at hd
  omega

theorem gnome_pot_reset (s0 : GnomeSort) (a : List Int) :
    pot (reset s0 a a.length) = 2 * inv a + (a.length - 1) := by
  have e1 : ((a.length : Int) - 1).toNat = a.length - 1 := by omega
  simp only [pot, reset, e1]

theorem gnome_pot_done (s : GnomeSort) (h : Inv s) (hd : isSorted s = true) : pot s = 0 := by
  have hs := gnome_sorted_of_done s h hd
  obtain ⟨k, hk, hn, hb, P⟩ := h
  simp only [isSorted, decide_eq_true_eq] at hd
  have e1 : (s.size - s.index).toNat = 0 := by omega
  simp [pot, e1, inv_of_sorted s.arr hs]

end GnomeSort

/-! ## InsertionSort: invariant and potential -/

theorem set_nth_self (a : List Int) (k : Nat) : a.set k (nth a k) = a := by
  induction a generalizing k with
  | nil => simp
  | cons x xs ih =>
    cases k with
    | zero => simp [nth]
    | succ k => simp [nth_cons_succ, ih]

/-- Shifting `a[k]` into the free cell `k+1` exchanges, in the sequence with the
key put back, the key and its left neighbour. -/
theorem shift_logical (a : List Int) (k : Nat) (key : Int) (hk : k + 1 < a.length) :
    ∃ pre post, a.set (k + 1) key = pre ++ nth a k :: key :: post ∧
      (a.set (k + 1) (nth a k)).set k key = pre ++ key :: nth a k :: post := by
  have hL : k + 1 < (a.set (k + 1) key).length := by simpa using hk
  obtain ⟨pre, post, e1, _, e3⟩ := swap_up (a.set (k + 1) key) k hL
  have n1 : nth (a.set (k + 1) key) k = nth a k := by simp [nth_set]
  have n2 : nth (a.set (k + 1) key) (k + 1) = key := by simp [nth_set, hk]
  rw [n1, n2] at e1 e3
  refine ⟨pre, post, e1, ?_⟩
  rw [← e3]
  rw [List.set_comm key key a (by omega : k + 1 ≠ k), List.set_set,
    List.set_comm _ _ a (by omega : k + 1 ≠ k)]

/-- Putting the key into the free cell `h` gives a non-descending first part
`0 .. i`. -/
theorem place_sorted (a : List Int) (i h : Nat) (key : Int) (hh : h ≤ i) (hi : i < a.length)
    (Q1 : ∀ p q, p ≤ q → q ≤ i → p ≠ h → q ≠ h → nth a p ≤ nth a q)
    (Q2 : ∀ q, h < q → q ≤ i → key < nth a q)
    (Q3 : ∀ p, p < h → nth a p ≤ key) :
    ∀ p q, p ≤ q → q < i + 1 → nth (a.set h key) p ≤ nth (a.set h key) q := by
  have hh0 : h < a.length := by omega
  have nH : nth (a.set h key) h = key := by simp [nth_set, hh0]
  have nO : ∀ m, m ≠ h → nth (a.set h key) m = nth a m := by
    intro m hm
    simp [nth_set, hm]
  intro p q hpq hq
  by_cases hp : p = h
  · by_cases hq2 : q = h
    · rw [hp, hq2]
    · rw [hp, nH, nO q hq2]
      exact le_of_lt (Q2 q (by omega) (by omega))
  · by_cases hq2 : q = h
    · rw [hq2, nH, nO p hp]
      exact Q3 p (by omega)
    · rw [nO p hp, nO q hq2]
      exact Q1 p q hpq (by omega) hp hq2

namespace InsertionSort

theorem insertion_inv_reset (s0 : InsertionSort) (a : List Int) : Inv (reset s0 a a.length) := by
  refine Or.inl ⟨rfl, 1, rfl, rfl, le_refl _, ?_, ?_, ?_, ?_⟩
  · show 1 ≤ a.length ∨ (a.length = 0 ∧ 1 = 1)
    omega
  · show (-1 : Int) ≤ 0
    omega
  · show (0 : Int) + 1 ≤ ((1 : Nat) : Int)
    omega
  · intro p q h1 h2
    have : p = q := by omega
    subst this
    exact le_refl _

theorem insertion_capture_spec (s : InsertionSort) (h : InvN s) (hd : isSorted s = false) :
    ∃ t, capture s = some t ∧ InvH t ∧ pot t = pot s ∧ t.arr = s.arr := by
  obtain ⟨a, n, si, sj, key, hold⟩ := s
  obtain ⟨hh, i, hi, hn, h1, hb, hj1, hj2, P⟩ := h
  simp only at hh hi hn h1 hb hj1 hj2 P
  subst hh hi hn
  simp only [isSorted, decide_eq_false_iff_not] at hd
  have hi0 : i < a.length := by omega
  have e : capture ⟨a, a.length, i, sj, key, false⟩
      = some ⟨a, a.length, i, (i : Int) - 1, nth a i, true⟩ := by
    simp [capture, rd_nat a i hi0]
  refine ⟨_, e, ⟨rfl, i, i, rfl, by simp, rfl, h1, hi0, le_refl _, ?_, ?_⟩, ?_, rfl⟩
  · intro p q hpq hq hp hq2
    exact P p q hpq (by omega)
  · intro q hq1 hq2
    omega
  · have e1 : ((i : Int) - 1 + 1).toNat = i := by omega
    simp only [pot, logical, e1, set_nth_self]
    simp

theorem insertion_shiftOrPlace_spec (s : InsertionSort) (h : InvH s) :
    ∃ t, shiftOrPlace s = some t ∧ Inv t ∧ pot t + 1 = pot s ∧
      ∃ k v, k < s.arr.length ∧ t.arr = s.arr.set k v := by
  obtain ⟨a, n, si, sj, key, hold⟩ := s
  obtain ⟨hh, i, h, hi, hj, hn, h1, hi0, hhi, Q1, Q2⟩ := h
  simp only at hh hi hj hn h1 hi0 hhi Q1 Q2
  subst hh hi hn
  have hh0 : h < a.length := by omega
  -- the placement branch, common to `j = -1` and `arr[j] <= key`
  have place : ∀ (Q3 : ∀ p, p < h → nth a p ≤ key),
      Inv ⟨a.set h key, a.length, (i : Int) + 1, sj, key, false⟩ ∧
      pot ⟨a.set h key, a.length, (i : Int) + 1, sj, key, false⟩ + 1
        = pot ⟨a, a.length, i, sj, key, true⟩ := by
    intro Q3
    refine ⟨Or.inl ⟨rfl, i + 1, by simp, by simp, by omega, Or.inl (by simp; omega),
      by simp only; omega, by simp only; omega, ?_⟩, ?_⟩
    · exact place_sorted a i h key hhi hi0 Q1 Q2 Q3
    · have e1 : (sj + 1).toNat = h := by omega
      have e2 : ((a.length : Int) - ((i : Int) + 1)).toNat + 1
          = ((a.length : Int) - (i : Int)).toNat := by omega
      simp only [pot, logical, e1]
      simp only [if_true, Bool.false_eq_true, if_false]
      omega
  cases h with
  | zero =>
    have hj2 : sj = -1 := by omega
    subst hj2
    have e : shiftOrPlace ⟨a, a.length, i, -1, key, true⟩
        = some ⟨a.set 0 key, a.length, (i : Int) + 1, -1, key, false⟩ := by
      have hw := wr_nat a 0 key hh0
      simp only [Nat.cast_zero] at hw
      simp [shiftOrPlace, shiftCond, hw]
    obtain ⟨p1, p2⟩ := place (fun p hp => by omega)
    exact ⟨_, e, p1, p2, 0, key, hh0, rfl⟩
  | succ k =>
    have hj2 : sj = (k : Int) := by omega
    subst hj2
    have hk0 : k < a.length := by omega
    by_cases hc : nth a k > key
    · have e : shiftOrPlace ⟨a, a.length, i, k, key, true⟩
          = some ⟨a.set (k + 1) (nth a k), a.length, i, (k : Int) - 1, key, true⟩ := by
        simp [shiftOrPlace, shiftCond, rd_nat a k hk0, hc, wr_nat_succ a k _ hh0]
      have nH : nth (a.set (k + 1) (nth a k)) (k + 1) = nth a k := by simp [nth_set, hh0]
      have nO : ∀ m, m ≠ k + 1 → nth (a.set (k + 1) (nth a k)) m = nth a m := by
        intro m hm
        simp [nth_set, hm]
      refine ⟨_, e, Or.inr ⟨rfl, i, k, rfl, by simp, by simp, h1, by simpa using hi0,
        by omega, ?_, ?_⟩, ?_, k + 1, nth a k, hh0, rfl⟩
      · intro p q hpq hq hp hq2
        simp only
        by_cases hq3 : q = k + 1
        · by_cases hp3 : p = k + 1
          · rw [hp3, hq3]
          · rw [hq3, nH, nO p hp3]
            exact Q1 p k (by omega) (by omega) (by omega) (by omega)
        · by_cases hp3 : p = k + 1
          · rw [hp3, nH, nO q hq3]
            exact Q1 k q (by omega) hq (by omega) hq3
          · rw [nO p hp3, nO q hq3]
            exact Q1 p q hpq hq hp3 hq3
      · intro q hq1 hq2
        simp only
        by_cases hq3 : q = k + 1
        · rw [hq3, nH]
          exact hc
        · rw [nO q hq3]
          exact Q2 q (by omega) hq2
      · obtain ⟨pre, post, e1, e3⟩ := shift_logical a k key hh0
        have hinv := inv_swap pre post (nth a k) key hc
        rw [← e1, ← e3] at hinv
        have e4 : ((k : Int) - 1 + 1).toNat = k := by omega
        have e5 : ((k : Int) + 1).toNat = k + 1 := by omega
        simp only [pot, logical, e4, e5]
        simp only [if_true]
        omega
    · have e : shiftOrPlace ⟨a, a.length, i, k, key, true⟩
          = some ⟨a.set (k + 1) key, a.length, (i : Int) + 1, k, key, false⟩ := by
        simp [shiftOrPlace, shiftCond, rd_nat a k hk0, hc, wr_nat_succ a k _ hh0]
      obtain ⟨p1, p2⟩ := place (fun p hp =>
        le_trans (Q1 p k (by omega) (by omega) (by omega) (by omega)) (not_lt.mp hc))
      exact ⟨_, e, p1, p2, k + 1, key, hh0, rfl⟩

theorem insertion_step_spec (s : InsertionSort) (h : Inv s) :
    ∃ t, step s = some t ∧ Inv t ∧ (isSorted s = true → t = s) ∧
      (isSorted s = false → pot t + 1 = pot s) ∧
      (t.arr = s.arr ∨ ∃ k v, k < s.arr.length ∧ t.arr = s.arr.set k v) := by
  cases hd : isSorted s with
  | true =>
    refine ⟨s, by simp [step, hd], h, fun _ => rfl, ?_, Or.inl rfl⟩
    intro h2
    cases h2
  | false =>
    rcases h with hN | hH
    · obtain ⟨t, e1, ht, hp1, ha⟩ := insertion_capture_spec s hN hd
      obtain ⟨u, e2, hu, hp2, k, v, hk, hw⟩ := insertion_shiftOrPlace_spec t ht
      refine ⟨u, by simp [step, hd, e1, e2], hu, ?_, ?_, Or.inr ⟨k, v, ?_, ?_⟩⟩
      · intro h2
        cases h2
      · intro _
        omega
      · rw [← ha]; exact hk
      · rw [← ha]; exact hw
    · obtain ⟨u, e2, hu, hp2, k, v, hk, hw⟩ := insertion_shiftOrPlace_spec s hH
      have e1 : capture s = some s := by simp [capture, hH.1]
      refine ⟨u, by simp [step, hd, e1, e2], hu, ?_, fun _ => hp2, Or.inr ⟨k, v, hk, hw⟩⟩
      intro h2
      cases h2

theorem insertion_sorted_of_done (s : InsertionSort) (h : Inv s) (hd : isSorted s = true) :
    s.arr.Sorted (· ≤ ·) := by
  simp only [isSorted, decide_eq_true_eq] at hd
  rcases h with ⟨hh, i, hi, hn, h1, hb, hj1, hj2, P⟩ | ⟨hh, i, h, hi, hj, hn, h1, hi0, _⟩
  · apply sorted_of_nth
    intro p q hpq hq
    exact P p q (le_of_lt hpq) (by omega)
  · omega

theorem insertion_pot_reset (s0 : InsertionSort) (a : List Int) :
    pot (reset s0 a a.length) = inv a + (a.length - 1) := by
  have e1 : ((a.length : Int) - 1).toNat = a.length - 1 := by omega
  simp [pot, reset, logical, e1]

theorem insertion_pot_done (s : InsertionSort) (h : Inv s) (hd : isSorted s = true) : pot s = 0 := by
  have hs := insertion_sorted_of_done s h hd
  simp only [isSorted, decide_eq_true_eq] at hd
  rcases h with ⟨hh, i, hi, hn, h1, hb, hj1, hj2, P⟩ | ⟨hh, i, h, hi, hj, hn, h1, hi0, _⟩
  · have e1 : (s.size - s.i).toNat = 0 := by omega
    simp [pot, logical, hh, e1, inv_of_sorted s.arr hs]
  · omega

end InsertionSort

theorem tri_add_le_sq (n : Nat) : tri (n - 1) + (n - 1) ≤ n * n := by
  have h := tri_le_sq (n - 1)
  cases n with
  | zero => simp [tri]
  | succ m =>
    simp only [Nat.add_sub_cancel] at h ⊢
    nlinarith

theorem two_tri (m : Nat) : 2 * tri m = m * (m + 1) := by
  induction m with
  | zero => simp [tri]
  | succ m ih => simp only [tri]; nlinarith

theorem two_tri_add_le_sq (n : Nat) : 2 * tri (n - 1) + (n - 1) ≤ n * n := by
  have h := two_tri (n - 1)
  cases n with
  | zero => simp [tri]
  | succ m =>
    simp only [Nat.add_sub_cancel] at h ⊢
    nlinarith

/-! ## Reachable states satisfy the invariants -/

theorem bubble_reach (s0 : BubbleSort) (a : List Int) (s : BubbleSort)
    (h : Reach BubbleSort.step (BubbleSort.reset s0 a a.length) s) :
    BubbleSort.Inv s ∧ s.arr.length = a.length := by
  refine reach_inv BubbleSort.step (fun s => BubbleSort.Inv s ∧ s.arr.length = a.length) ?_
    _ s ⟨BubbleSort.bubble_inv_reset s0 a, rfl⟩ h
  intro u ⟨hu, hl⟩
  obtain ⟨t, e, ht, _, _, hw⟩ := BubbleSort.bubble_step_spec u hu
  refine ⟨t, e, ht, ?_⟩
  rcases hw with hw | ⟨pre, x, y, post, e1, e2⟩
  · rw [hw]; exact hl
  · rw [← hl, e1, e2]; simp

theorem gnome_reach (s0 : GnomeSort) (a : List Int) (s : GnomeSort)
    (h : Reach GnomeSort.step (GnomeSort.reset s0 a a.length) s) :
    GnomeSort.Inv s ∧ s.arr.length = a.length := by
  refine reach_inv GnomeSort.step (fun s => GnomeSort.Inv s ∧ s.arr.length = a.length) ?_
    _ s ⟨GnomeSort.gnome_inv_reset s0 a, rfl⟩ h
  intro u ⟨hu, hl⟩
  obtain ⟨t, e, ht, _, _, hw⟩ := GnomeSort.gnome_step_spec u hu
  refine ⟨t, e, ht, ?_⟩
  rcases hw with hw | ⟨pre, x, y, post, e1, e2⟩
  · rw [hw]; exact hl
  · rw [← hl, e1, e2]; simp

theorem insertion_reach (s0 : InsertionSort) (a : List Int) (s : InsertionSort)
    (h : Reach InsertionSort.step (InsertionSort.reset s0 a a.length) s) :
    InsertionSort.Inv s ∧ s.arr.length = a.length := by
  refine reach_inv InsertionSort.step
    (fun s => InsertionSort.Inv s ∧ s.arr.length = a.length) ?_
    _ s ⟨InsertionSort.insertion_inv_reset s0 a, rfl⟩ h
  intro u ⟨hu, hl⟩
  obtain ⟨t, e, ht, _, _, hw⟩ := InsertionSort.insertion_step_spec u hu
  refine ⟨t, e, ht, ?_⟩
  rcases hw with hw | ⟨k, v, _, e1⟩
  · rw [hw]; exact hl
  · rw [← hl, e1]; simp

theorem selection_reach (s0 : SelectionSort) (a : List Int) (s : SelectionSort)
    (h : Reach SelectionSort.step (SelectionSort.reset s0 a a.length) s) :
    SelectionSort.Inv s ∧ s.arr.length = a.length := by
  refine reach_inv SelectionSort.step
    (fun s => SelectionSort.Inv s ∧ s.arr.length = a.length) ?_
    _ s ⟨SelectionSort.selection_inv_reset s0 a, rfl⟩ h
  intro u ⟨hu, hl⟩
  obtain ⟨t, e, ht, _, _, hw⟩ := SelectionSort.selection_step_spec u hu
  exact ⟨t, e, ht, by rw [hw]; exact hl⟩

theorem miracle_reach (s0 : MiracleSort) (a : List Int) (s : MiracleSort)
    (h : Reach MiracleSort.step (MiracleSort.reset s0 a a.length) s) :
    s = MiracleSort.reset s0 a a.length := by
  refine reach_inv MiracleSort.step (fun s => s = MiracleSort.reset s0 a a.length) ?_
    _ s rfl h
  intro u hu
  exact ⟨u, rfl, hu⟩

/-! ## BogoSort: the scan and the shuffle stay inside the array -/

namespace BogoSort

theorem scan_total (arr : List Int) (fuel : Nat) :
    ∀ i : Nat, arr.length ≤ fuel + i + 1 →
      ∃ b, scan arr arr.length fuel (i : Int) = some b := by
  induction fuel with
  | zero =>
    intro i h
    have h2 : ¬ ((i : Int) < (arr.length : Int) - 1) := by omega
    exact ⟨true, by simp [scan, h2]⟩
  | succ fuel ih =>
    intro i h
    by_cases h2 : (i : Int) < (arr.length : Int) - 1
    · have hi1 : i + 1 < arr.length := by omega
      have hi0 : i < arr.length := by omega
      by_cases hc : nth arr i > nth arr (i + 1)
      · exact ⟨false, by simp [scan, h2, rd_nat arr i hi0, rd_nat_succ arr i hi1, hc]⟩
      · obtain ⟨b, hb⟩ := ih (i + 1) (by omega)
        refine ⟨b, ?_⟩
        have hcast : ((i + 1 : Nat) : Int) = (i : Int) + 1 := by push_cast; rfl
        rw [hcast] at hb
        simp [scan, h2, rd_nat arr i hi0, rd_nat_succ arr i hi1, hc, hb]
    · exact ⟨true, by simp [scan, h2]⟩

theorem shuffleLoop_total (r : Int → Int) (hr : ValidDraw r) :
    ∀ (i : Nat) (arr : List Int), (i < arr.length ∨ i = 0) →
      ∃ arr2, shuffleLoop r i arr = some arr2 ∧ arr2.length = arr.length := by
  intro i
  induction i with
  | zero =>
    intro arr _
    exact ⟨arr, rfl, rfl⟩
  | succ i ih =>
    intro arr h
    have hi : i + 1 < arr.length := by omega
    obtain ⟨h0, h1⟩ := hr ((i : Int) + 1) (by omega)
    obtain ⟨jn, hj⟩ : ∃ jn : Nat, r ((i : Int) + 1) = (jn : Int) :=
      ⟨(r ((i : Int) + 1)).toNat, by omega⟩
    have hjn : jn < arr.length := by omega
    obtain ⟨arr2, e, hl⟩ :=
      ih ((arr.set (i + 1) (nth arr jn)).set jn (nth arr (i + 1))) (by simp; omega)
    refine ⟨arr2, ?_, by simpa using hl⟩
    have hw := wr_nat (arr.set (i + 1) (nth arr jn)) jn (nth arr (i + 1)) (by simpa using hjn)
    simp [shuffleLoop, hj, rd_nat_succ arr i hi, rd_nat arr jn hjn, wr_nat_succ arr i _ hi, hw, e]

theorem bogo_step_spec (r : Int → Int) (hr : ValidDraw r) (s : BogoSort)
    (h : s.size = s.arr.length) :
    (∃ b, isSorted s = some b) ∧
      ∃ t, step r s = some t ∧ t.size = t.arr.length ∧ t.arr.length = s.arr.length := by
  obtain ⟨a, n⟩ := s
  simp only at h
  subst h
  obtain ⟨b, hb⟩ := scan_total a ((a.length : Int) - 1).toNat 0 (by omega)
  have hb2 : isSorted ⟨a, a.length⟩ = some b := by simpa [isSorted] using hb
  refine ⟨⟨b, hb2⟩, ?_⟩
  cases b with
  | true => exact ⟨_, by simp [step, hb2], rfl, rfl⟩
  | false =>
    obtain ⟨arr2, e, hl⟩ := shuffleLoop_total r hr ((a.length : Int) - 1).toNat a (by omega)
    have e2 : shuffleLoop r (a.length - 1) a = some arr2 := by simpa using e
    exact ⟨⟨arr2, a.length⟩, by simp [step, hb2, shuffle, e2], by simp [hl], hl⟩

theorem bogo_run_inv (a : List Int) :
    ∀ (rs : List (Int → Int)) (s t : BogoSort), (∀ r ∈ rs, ValidDraw r) →
      s.size = s.arr.length → s.arr.length = a.length → run rs s = some t →
      t.size = t.arr.length ∧ t.arr.length = a.length := by
  intro rs
  induction rs with
  | nil =>
    intro s t _ h1 h2 e
    simp only [run, Option.some.injEq] at e
    subst e
    exact ⟨h1, h2⟩
  | cons r rs ih =>
    intro s t hv h1 h2 e
    obtain ⟨_, u, e1, hu1, hu2⟩ := bogo_step_spec r (hv r (List.mem_cons_self _ _)) s h1
    simp only [run, e1, Option.some_bind] at e
    exact ih u t (fun r2 h => hv r2 (List.mem_cons_of_mem _ h)) hu1 (by omega) e

theorem bogo_reach (s0 : BogoSort) (a : List Int) (s : BogoSort)
    (h : Reachable (reset s0 a a.length) s) :
    s.size = s.arr.length ∧ s.arr.length = a.length := by
  obtain ⟨rs, hv, e⟩ := h
  exact bogo_run_inv a rs _ s hv rfl rfl e

end BogoSort

/-! ## Termination and sortedness (C1 - C4) -/

/-- C1. BubbleSort: for every integer sequence `a` of length `n` (also `n = 0, 1, 2`)
and every prior state `s0`, there is a `k ≤ n * n` such that `k` calls of `step`
from `reset(a, n)` all succeed and end in a state where `isSorted` is true and
the bound sequence is non-descending. -/
theorem bubble_sorts_within_square (s0 : BubbleSort) (a : List Int) :
    ∃ k, k ≤ a.length * a.length ∧ ∃ t,
      iter BubbleSort.step k (BubbleSort.reset s0 a a.length) = some t ∧
      t.isSorted = true ∧ t.arr.Sorted (· ≤ ·) := by
  obtain ⟨k, t, e, hd, ht, hk, _⟩ :=
    iter_reach BubbleSort.step BubbleSort.isSorted BubbleSort.Inv BubbleSort.pot
      (fun s hs hns => by
        obtain ⟨t, e, ht, _, hp, _⟩ := BubbleSort.bubble_step_spec s hs
        exact ⟨t, e, ht, hp hns⟩)
      _ (BubbleSort.reset s0 a a.length) (BubbleSort.bubble_inv_reset s0 a) rfl
  rw [BubbleSort.bubble_pot_reset] at hk
  have hb := tri_add_le_sq a.length
  exact ⟨k, by omega, t, e, hd, BubbleSort.bubble_sorted_of_done t ht hd⟩

/-- C2. InsertionSort: for every integer sequence `a` of length `n` (also `n = 0, 1`)
and every prior state `s0`, there is a `k ≤ n * n` such that `k` calls of `step`
from `reset(a, n)` all succeed and end in a state where `isSorted` is true
(`i >= size`) and the bound sequence is non-descending. -/
theorem insertion_sorts_within_square (s0 : InsertionSort) (a : List Int) :
    ∃ k, k ≤ a.length * a.length ∧ ∃ t,
      iter InsertionSort.step k (InsertionSort.reset s0 a a.length) = some t ∧
      t.isSorted = true ∧ t.arr.Sorted (· ≤ ·) := by
  obtain ⟨k, t, e, hd, ht, hk, _⟩ :=
    iter_reach InsertionSort.step InsertionSort.isSorted InsertionSort.Inv InsertionSort.pot
      (fun s hs hns => by
        obtain ⟨t, e, ht, _, hp, _⟩ := InsertionSort.insertion_step_spec s hs
        exact ⟨t, e, ht, hp hns⟩)
      _ (InsertionSort.reset s0 a a.length) (InsertionSort.insertion_inv_reset s0 a) rfl
  rw [InsertionSort.insertion_pot_reset] at hk
  have hb := tri_add_le_sq a.length
  have hi := inv_le a
  exact ⟨k, by omega, t, e, hd, InsertionSort.insertion_sorted_of_done t ht hd⟩

/-- C3. SelectionSort: for every integer sequence `a` of length `n` (also `n = 0, 1`)
and every prior state `s0`, there is a `k ≤ n * n` such that `k` calls of `step`
from `reset(a, n)` all succeed and end in a state where `isSorted` is true
(`i >= size - 1`) and the bound sequence is non-descending. -/
theorem selection_sorts_within_square (s0 : SelectionSort) (a : List Int) :
    ∃ k, k ≤ a.length * a.length ∧ ∃ t,
      iter SelectionSort.step k (SelectionSort.reset s0 a a.length) = some t ∧
      t.isSorted = true ∧ t.arr.Sorted (· ≤ ·) := by
  obtain ⟨k, t, e, hd, ht, hk, _⟩ :=
    iter_reach SelectionSort.step SelectionSort.isSorted SelectionSort.Inv SelectionSort.pot
      (fun s hs hns => by
        obtain ⟨t, e, ht, _, hp, _⟩ := SelectionSort.selection_step_spec s hs
        exact ⟨t, e, ht, hp hns⟩)
      _ (SelectionSort.reset s0 a a.length) (SelectionSort.selection_inv_reset s0 a) rfl
  rw [SelectionSort.selection_pot_reset] at hk
  have hb := tri_add_le_sq a.length
  exact ⟨k, by omega, t, e, hd, SelectionSort.selection_sorted_of_done t ht hd⟩

/-- C4. GnomeSort: for every integer sequence `a` of length `n` (also `n = 0, 1`)
and every prior state `s0`, there is a `k ≤ n * n` such that `k` calls of `step`
from `reset(a, n)` all succeed and end in a state where `isSorted` is true
(`index >= size`) and the bound sequence is non-descending. -/
theorem gnome_sorts_within_square (s0 : GnomeSort) (a : List Int) :
    ∃ k, k ≤ a.length * a.length ∧ ∃ t,
      iter GnomeSort.step k (GnomeSort.reset s0 a a.length) = some t ∧
      t.isSorted = true ∧ t.arr.Sorted (· ≤ ·) := by
  obtain ⟨k, t, e, hd, ht, hk, _⟩ :=
    iter_reach GnomeSort.step GnomeSort.isSorted GnomeSort.Inv GnomeSort.pot
      (fun s hs hns => by
        obtain ⟨t, e, ht, _, hp, _⟩ := GnomeSort.gnome_step_spec s hs
        exact ⟨t, e, ht, hp hns⟩)
      _ (GnomeSort.reset s0 a a.length) (GnomeSort.gnome_inv_reset s0 a) rfl
  rw [GnomeSort.gnome_pot_reset] at hk
  have hb := two_tri_add_le_sq a.length
  have hi := inv_le a
  exact ⟨k, by omega, t, e, hd, GnomeSort.gnome_sorted_of_done t ht hd⟩

/-! ## Safety of the array accesses (C5) -/

/-- C5. Safety of `step()`: for each of the six variants, for every integer
sequence `a` of length `n ≥ 0` and every state reachable from `reset(a, n)` by
any number of `step()` calls (for Bogo under any draws `r` with `0 ≤ r ≤ i`),
the bound array still has `n` cells and `step()` (and, for Bogo, the scan of
`isSorted()`) completes without an access outside `0 .. n - 1`; states in which
`isSorted()` is already true are included. -/
theorem step_stays_in_bounds :
    (∀ (s0 : BubbleSort) (a : List Int) (s : BubbleSort),
      Reach BubbleSort.step (BubbleSort.reset s0 a a.length) s →
        s.arr.length = a.length ∧ ∃ t, BubbleSort.step s = some t) ∧
    (∀ (s0 : InsertionSort) (a : List Int) (s : InsertionSort),
      Reach InsertionSort.step (InsertionSort.reset s0 a a.length) s →
        s.arr.length = a.length ∧ ∃ t, InsertionSort.step s = some t) ∧
    (∀ (s0 : SelectionSort) (a : List Int) (s : SelectionSort),
      Reach SelectionSort.step (SelectionSort.reset s0 a a.length) s →
        s.arr.length = a.length ∧ ∃ t, SelectionSort.step s = some t) ∧
    (∀ (s0 : GnomeSort) (a : List Int) (s : GnomeSort),
      Reach GnomeSort.step (GnomeSort.reset s0 a a.length) s →
        s.arr.length = a.length ∧ ∃ t, GnomeSort.step s = some t) ∧
    (∀ (s0 : BogoSort) (a : List Int) (s : BogoSort) (r : Int → Int),
      BogoSort.Reachable (BogoSort.reset s0 a a.length) s → ValidDraw r →
        s.arr.length = a.length ∧ (∃ b, BogoSort.isSorted s = some b) ∧
          ∃ t, BogoSort.step r s = some t) ∧
    (∀ (s0 : MiracleSort) (a : List Int) (s : MiracleSort),
      Reach MiracleSort.step (MiracleSort.reset s0 a a.length) s →
        s.arr.length = a.length ∧ ∃ t, MiracleSort.step s = some t) := by
  refine ⟨?_, ?_, ?_, ?_, ?_, ?_⟩
  · intro s0 a s h
    obtain ⟨hi, hl⟩ := bubble_reach s0 a s h
    obtain ⟨t, e, _⟩ := BubbleSort.bubble_step_spec s hi
    exact ⟨hl, t, e⟩
  · intro s0 a s h
    obtain ⟨hi, hl⟩ := insertion_reach s0 a s h
    obtain ⟨t, e, _⟩ := InsertionSort.insertion_step_spec s hi
    exact ⟨hl, t, e⟩
  · intro s0 a s h
    obtain ⟨hi, hl⟩ := selection_reach s0 a s h
    obtain ⟨t, e, _⟩ := SelectionSort.selection_step_spec s hi
    exact ⟨hl, t, e⟩
  · intro s0 a s h
    obtain ⟨hi, hl⟩ := gnome_reach s0 a s h
    obtain ⟨t, e, _⟩ := GnomeSort.gnome_step_spec s hi
    exact ⟨hl, t, e⟩
  · intro s0 a s r h hr
    obtain ⟨hi, hl⟩ := BogoSort.bogo_reach s0 a s h
    obtain ⟨hb, t, e, _⟩ := BogoSort.bogo_step_spec r hr s hi
    exact ⟨hl, hb, t, e⟩
  · intro s0 a s h
    rw [miracle_reach s0 a s h]
    exact ⟨rfl, _, rfl⟩

theorem step_stays_in_bounds_witness :
    (Reach BubbleSort.step (BubbleSort.reset BubbleSort.new [3, 1, 2] 3) ⟨[1, 3, 2], 3, 0, 1⟩ ∧
      ∃ t, BubbleSort.step ⟨[1, 3, 2], 3, 0, 1⟩ = some t) ∧
    (Reach InsertionSort.step (InsertionSort.reset (InsertionSort.new 0) [2, 1] 2)
        ⟨[2, 2], 2, 1, -1, 1, true⟩ ∧
      ∃ t, InsertionSort.step ⟨[2, 2], 2, 1, -1, 1, true⟩ = some t) ∧
    (Reach SelectionSort.step (SelectionSort.reset SelectionSort.new [3, 1, 2] 3)
        ⟨[3, 1, 2], 3, 0, 2, 1⟩ ∧
      ∃ t, SelectionSort.step ⟨[3, 1, 2], 3, 0, 2, 1⟩ = some t) ∧
    (Reach GnomeSort.step (GnomeSort.reset GnomeSort.new [3, 1, 2] 3) ⟨[1, 3, 2], 3, 0⟩ ∧
      ∃ t, GnomeSort.step ⟨[1, 3, 2], 3, 0⟩ = some t) ∧
    (BogoSort.Reachable (BogoSort.reset BogoSort.new [3, 1, 2] 3) ⟨[1, 2, 3], 3⟩ ∧
      ∃ t, BogoSort.step (fun _ => 0) ⟨[1, 2, 3], 3⟩ = some t) ∧
    (Reach MiracleSort.step (MiracleSort.reset MiracleSort.new [3, 1, 2] 3) ⟨[3, 1, 2], 3⟩ ∧
      ∃ t, MiracleSort.step ⟨[3, 1, 2], 3⟩ = some t) :=
  have hv : ValidDraw (fun _ => 0) := fun _ h => ⟨le_refl _, le_of_lt h⟩
  have hb : BogoSort.Reachable (BogoSort.reset BogoSort.new [3, 1, 2] 3) ⟨[1, 2, 3], 3⟩ :=
    ⟨[fun _ => 0], by intro r hr; simp at hr; subst hr; exact hv, by decide⟩
  ⟨⟨⟨1, by decide⟩, (step_stays_in_bounds.1 BubbleSort.new [3, 1, 2] _ ⟨1, by decide⟩).2⟩,
   ⟨⟨1, by decide⟩,
    (step_stays_in_bounds.2.1 (InsertionSort.new 0) [2, 1] _ ⟨1, by decide⟩).2⟩,
   ⟨⟨1, by decide⟩,
    (step_stays_in_bounds.2.2.1 SelectionSort.new [3, 1, 2] _ ⟨1, by decide⟩).2⟩,
   ⟨⟨1, by decide⟩, (step_stays_in_bounds.2.2.2.1 GnomeSort.new [3, 1, 2] _ ⟨1, by decide⟩).2⟩,
   ⟨hb, (step_stays_in_bounds.2.2.2.2.1 BogoSort.new [3, 1, 2] _ (fun _ => 0) hb hv).2.2⟩,
   ⟨⟨1, by decide⟩,
    (step_stays_in_bounds.2.2.2.2.2 MiracleSort.new [3, 1, 2] _ ⟨1, by decide⟩).2⟩⟩

/-! ## Idempotence after completion (C6) -/

/-- C6. Idempotence after completion: for each of the six variants, in every
state in which `isSorted()` is true (reachable from `reset` or not), a further
`step()` returns the very same state, so the bound sequence, every progress
field, `activeIndex()` and `isSorted()` are unchanged; for Bogo no shuffle is
performed when the scan finds the sequence non-descending. -/
theorem step_after_completion_is_noop :
    (∀ s : BubbleSort, s.isSorted = true → BubbleSort.step s = some s) ∧
    (∀ s : InsertionSort, s.isSorted = true → InsertionSort.step s = some s) ∧
    (∀ s : SelectionSort, s.isSorted = true → SelectionSort.step s = some s) ∧
    (∀ s : GnomeSort, s.isSorted = true → GnomeSort.step s = some s) ∧
    (∀ (r : Int → Int) (s : BogoSort), s.isSorted = some true → BogoSort.step r s = some s) ∧
    (∀ s : MiracleSort, s.isSorted = true → MiracleSort.step s = some s) := by
  refine ⟨?_, ?_, ?_, ?_, ?_, ?_⟩
  · intro s h; simp [BubbleSort.step, h]
  · intro s h; simp [InsertionSort.step, h]
  · intro s h; simp [SelectionSort.step, h]
  · intro s h; simp [GnomeSort.step, h]
  · intro r s h; simp [BogoSort.step, h]
  · intro s _; rfl

theorem step_after_completion_is_noop_witness :
    (BubbleSort.isSorted ⟨[1, 2, 3], 3, 2, 0⟩ = true ∧
      BubbleSort.step ⟨[1, 2, 3], 3, 2, 0⟩ = some ⟨[1, 2, 3], 3, 2, 0⟩) ∧
    (InsertionSort.isSorted ⟨[1, 2], 2, 2, -1, 1, false⟩ = true ∧
      InsertionSort.step ⟨[1, 2], 2, 2, -1, 1, false⟩ = some ⟨[1, 2], 2, 2, -1, 1, false⟩) ∧
    (SelectionSort.isSorted ⟨[1, 2, 3], 3, 2, 3, 2⟩ = true ∧
      SelectionSort.step ⟨[1, 2, 3], 3, 2, 3, 2⟩ = some ⟨[1, 2, 3], 3, 2, 3, 2⟩) ∧
    (GnomeSort.isSorted ⟨[1, 2, 3], 3, 3⟩ = true ∧
      GnomeSort.step ⟨[1, 2, 3], 3, 3⟩ = some ⟨[1, 2, 3], 3, 3⟩) ∧
    (BogoSort.isSorted ⟨[1, 2, 3], 3⟩ = some true ∧
      BogoSort.step (fun i => i) ⟨[1, 2, 3], 3⟩ = some ⟨[1, 2, 3], 3⟩) ∧
    (MiracleSort.isSorted ⟨[3, 1, 2], 3⟩ = true ∧
      MiracleSort.step ⟨[3, 1, 2], 3⟩ = some ⟨[3, 1, 2], 3⟩) :=
  ⟨⟨by decide, step_after_completion_is_noop.1 _ (by decide)⟩,
   ⟨by decide, step_after_completion_is_noop.2.1 _ (by decide)⟩,
   ⟨by decide, step_after_completion_is_noop.2.2.1 _ (by decide)⟩,
   ⟨by decide, step_after_completion_is_noop.2.2.2.1 _ (by decide)⟩,
   ⟨by decide, step_after_completion_is_noop.2.2.2.2.1 _ _ (by decide)⟩,
   ⟨by decide, step_after_completion_is_noop.2.2.2.2.2 _ (by decide)⟩⟩

/-! ## Range of `activeIndex()` (C7, C8) -/

/-- C7, as stated, fails: on `[2,1]` the first `step()` of InsertionSort shifts
`arr[0]` to the right and leaves `j = -1`, so `activeIndex()` is `-1`; and right
after `reset([5], 1)` GnomeSort has `index = 1 = n`, so `activeIndex()` is `n`. -/
theorem activeIndex_insertion_gnome_counterexample :
    (∃ s, Reach InsertionSort.step (InsertionSort.reset (InsertionSort.new 0) [2, 1] 2) s ∧
      s.activeIndex = -1 ∧ ¬ (0 ≤ s.activeIndex ∧ s.activeIndex < 2)) ∧
    (∃ s, Reach GnomeSort.step (GnomeSort.reset GnomeSort.new [5] 1) s ∧
      s.activeIndex = 1 ∧ ¬ (0 ≤ s.activeIndex ∧ s.activeIndex < 1)) :=
  ⟨⟨⟨[2, 2], 2, 1, -1, 1, true⟩, ⟨1, by decide⟩, by decide, by decide⟩,
   ⟨⟨[5], 1, 1⟩, ⟨0, by decide⟩, by decide, by decide⟩⟩

/-- C7, amended. For every integer sequence `a` of length `n ≥ 1` and every state
reachable from `reset(a, n)`: `InsertionSort::activeIndex()` returns `j` with
`-1 ≤ j < n`, and `GnomeSort::activeIndex()` returns `index` with
`0 ≤ index ≤ n`, where `index = n` holds exactly when `isSorted()` is true. -/
theorem activeIndex_insertion_gnome_range :
    (∀ (s0 : InsertionSort) (a : List Int) (s : InsertionSort), 1 ≤ a.length →
      Reach InsertionSort.step (InsertionSort.reset s0 a a.length) s →
        -1 ≤ s.activeIndex ∧ s.activeIndex < a.length) ∧
    (∀ (s0 : GnomeSort) (a : List Int) (s : GnomeSort), 1 ≤ a.length →
      Reach GnomeSort.step (GnomeSort.reset s0 a a.length) s →
        0 ≤ s.activeIndex ∧ s.activeIndex ≤ a.length ∧
          (s.activeIndex = a.length ↔ s.isSorted = true)) := by
  refine ⟨?_, ?_⟩
  · intro s0 a s hn h
    obtain ⟨hi, hl⟩ := insertion_reach s0 a s h
    simp only [InsertionSort.activeIndex]
    rcases hi with ⟨_, i, hi, hsz, h1, hb, hj1, hj2, _⟩ | ⟨_, i, k, hi, hj, hsz, h1, hi0, hk, _⟩
    · omega
    · omega
  · intro s0 a s hn h
    obtain ⟨hi, hl⟩ := gnome_reach s0 a s h
    obtain ⟨k, hk, hsz, hb, _⟩ := hi
    simp only [GnomeSort.activeIndex, GnomeSort.isSorted, decide_eq_true_eq]
    omega

theorem activeIndex_insertion_gnome_range_witness :
    (1 ≤ [2, 1].length ∧
      Reach InsertionSort.step (InsertionSort.reset (InsertionSort.new 0) [2, 1] 2)
        ⟨[2, 2], 2, 1, -1, 1, true⟩ ∧
      -1 ≤ InsertionSort.activeIndex ⟨[2, 2], 2, 1, -1, 1, true⟩ ∧
      InsertionSort.activeIndex ⟨[2, 2], 2, 1, -1, 1, true⟩ < 2) ∧
    (1 ≤ [5].length ∧
      Reach GnomeSort.step (GnomeSort.reset GnomeSort.new [5] 1) ⟨[5], 1, 1⟩ ∧
      0 ≤ GnomeSort.activeIndex ⟨[5], 1, 1⟩ ∧ GnomeSort.activeIndex ⟨[5], 1, 1⟩ ≤ 1) :=
  ⟨⟨by decide, ⟨1, by decide⟩,
     activeIndex_insertion_gnome_range.1 (InsertionSort.new 0) [2, 1] _ (by decide)
       ⟨1, by decide⟩⟩,
   ⟨by decide, ⟨0, by decide⟩,
     ((activeIndex_insertion_gnome_range.2 GnomeSort.new [5] _ (by decide)
       ⟨0, by decide⟩).1),
     ((activeIndex_insertion_gnome_range.2 GnomeSort.new [5] _ (by decide)
       ⟨0, by decide⟩).2.1)⟩⟩

/-- C8. Active index validity for Bubble, Selection, Bogo and Miracle: for every
integer sequence `a` of length `n` and every state reachable from `reset(a, n)`,
`activeIndex()` returns an index `x` with `0 ≤ x < n` when `n ≥ 1`, and the
sentinel `0` when `n = 0`. -/
theorem activeIndex_valid_or_sentinel :
    (∀ (s0 : BubbleSort) (a : List Int) (s : BubbleSort),
      Reach BubbleSort.step (BubbleSort.reset s0 a a.length) s →
        (1 ≤ a.length → 0 ≤ s.activeIndex ∧ s.activeIndex < a.length) ∧
        (a.length = 0 → s.activeIndex = 0)) ∧
    (∀ (s0 : SelectionSort) (a : List Int) (s : SelectionSort),
      Reach SelectionSort.step (SelectionSort.reset s0 a a.length) s →
        (1 ≤ a.length → 0 ≤ s.activeIndex ∧ s.activeIndex < a.length) ∧
        (a.length = 0 → s.activeIndex = 0)) ∧
    (∀ (s0 : BogoSort) (a : List Int) (s : BogoSort),
      BogoSort.Reachable (BogoSort.reset s0 a a.length) s →
        (1 ≤ a.length → 0 ≤ s.activeIndex ∧ s.activeIndex < a.length) ∧
        (a.length = 0 → s.activeIndex = 0)) ∧
    (∀ (s0 : MiracleSort) (a : List Int) (s : MiracleSort),
      Reach MiracleSort.step (MiracleSort.reset s0 a a.length) s →
        (1 ≤ a.length → 0 ≤ s.activeIndex ∧ s.activeIndex < a.length) ∧
        (a.length = 0 → s.activeIndex = 0)) := by
  refine ⟨?_, ?_, ?_, ?_⟩
  · intro s0 a s h
    obtain ⟨hi, hl⟩ := bubble_reach s0 a s h
    obtain ⟨i, j, hi, hj, hsz, hb, _⟩ := hi
    simp only [BubbleSort.activeIndex]
    constructor
    · intro hn; omega
    · intro hn; omega
  · intro s0 a s h
    obtain ⟨hi, hl⟩ := selection_reach s0 a s h
    obtain ⟨i, j, m, hi, hj, hm, hsz, hb, _⟩ := hi
    simp only [SelectionSort.activeIndex]
    constructor
    · intro hn; omega
    · intro hn; omega
  · intro s0 a s _
    simp only [BogoSort.activeIndex]
    constructor
    · intro hn; omega
    · intro _; trivial
  · intro s0 a s _
    simp only [MiracleSort.activeIndex]
    constructor
    · intro hn; omega
    · intro _; trivial

theorem activeIndex_valid_or_sentinel_witness :
    (Reach BubbleSort.step (BubbleSort.reset BubbleSort.new [3, 1, 2] 3) ⟨[1, 2, 3], 3, 0, 2⟩ ∧
      0 ≤ BubbleSort.activeIndex ⟨[1, 2, 3], 3, 0, 2⟩ ∧
      BubbleSort.activeIndex ⟨[1, 2, 3], 3, 0, 2⟩ < 3) ∧
    (Reach SelectionSort.step (SelectionSort.reset SelectionSort.new [] 0) ⟨[], 0, 0, 1, 0⟩ ∧
      SelectionSort.activeIndex ⟨[], 0, 0, 1, 0⟩ = 0) ∧
    (BogoSort.Reachable (BogoSort.reset BogoSort.new [3, 1, 2] 3) ⟨[3, 1, 2], 3⟩ ∧
      0 ≤ BogoSort.activeIndex ⟨[3, 1, 2], 3⟩ ∧ BogoSort.activeIndex ⟨[3, 1, 2], 3⟩ < 3) ∧
    (Reach MiracleSort.step (MiracleSort.reset MiracleSort.new [3, 1, 2] 3) ⟨[3, 1, 2], 3⟩ ∧
      0 ≤ MiracleSort.activeIndex ⟨[3, 1, 2], 3⟩ ∧
      MiracleSort.activeIndex ⟨[3, 1, 2], 3⟩ < 3) :=
  have hb : BogoSort.Reachable (BogoSort.reset BogoSort.new [3, 1, 2] 3) ⟨[3, 1, 2], 3⟩ :=
    ⟨[], fun _ hr => absurd hr (List.not_mem_nil _), rfl⟩
  ⟨⟨⟨2, by decide⟩,
     (activeIndex_valid_or_sentinel.1 BubbleSort.new [3, 1, 2] _ ⟨2, by decide⟩).1
       (by decide)⟩,
   ⟨⟨0, by decide⟩,
     (activeIndex_valid_or_sentinel.2.1 SelectionSort.new [] _ ⟨0, by decide⟩).2 rfl⟩,
   ⟨hb, (activeIndex_valid_or_sentinel.2.2.1 BogoSort.new [3, 1, 2] _ hb).1 (by decide)⟩,
   ⟨⟨3, by decide⟩,
     (activeIndex_valid_or_sentinel.2.2.2 MiracleSort.new [3, 1, 2] _ ⟨3, by decide⟩).1
       (by decide)⟩⟩

/-! ## Step atomicity (C9) -/

/-- C9. Step atomicity: in every state reachable from `reset`, one `step()` of
BubbleSort or of GnomeSort succeeds and either leaves the sequence unchanged or
exchanges exactly one pair of adjacent elements, and one `step()` of
InsertionSort succeeds and changes at most one cell of the sequence (the shift
of `arr[j]` into `arr[j+1]`, or the placement of the key). -/
theorem step_atomicity :
    (∀ (s0 : BubbleSort) (a : List Int) (s : BubbleSort),
      Reach BubbleSort.step (BubbleSort.reset s0 a a.length) s →
        ∃ t, BubbleSort.step s = some t ∧
          (t.arr = s.arr ∨ ∃ pre x y post,
            s.arr = pre ++ x :: y :: post ∧ t.arr = pre ++ y :: x :: post)) ∧
    (∀ (s0 : GnomeSort) (a : List Int) (s : GnomeSort),
      Reach GnomeSort.step (GnomeSort.reset s0 a a.length) s →
        ∃ t, GnomeSort.step s = some t ∧
          (t.arr = s.arr ∨ ∃ pre x y post,
            s.arr = pre ++ x :: y :: post ∧ t.arr = pre ++ y :: x :: post)) ∧
    (∀ (s0 : InsertionSort) (a : List Int) (s : InsertionSort),
      Reach InsertionSort.step (InsertionSort.reset s0 a a.length) s →
        ∃ t, InsertionSort.step s = some t ∧
          (t.arr = s.arr ∨ ∃ k v, k < s.arr.length ∧ t.arr = s.arr.set k v)) := by
  refine ⟨?_, ?_, ?_⟩
  · intro s0 a s h
    obtain ⟨t, e, _, _, _, hw⟩ := BubbleSort.bubble_step_spec s (bubble_reach s0 a s h).1
    exact ⟨t, e, hw⟩
  · intro s0 a s h
    obtain ⟨t, e, _, _, _, hw⟩ := GnomeSort.gnome_step_spec s (gnome_reach s0 a s h).1
    exact ⟨t, e, hw⟩
  · intro s0 a s h
    obtain ⟨t, e, _, _, _, hw⟩ :=
      InsertionSort.insertion_step_spec s (insertion_reach s0 a s h).1
    exact ⟨t, e, hw⟩

theorem step_atomicity_witness :
    (Reach BubbleSort.step (BubbleSort.reset BubbleSort.new [3, 1, 2] 3) ⟨[1, 3, 2], 3, 0, 1⟩ ∧
      ∃ t, BubbleSort.step ⟨[1, 3, 2], 3, 0, 1⟩ = some t ∧
        (t.arr = [1, 3, 2] ∨ ∃ pre x y post,
          [1, 3, 2] = pre ++ x :: y :: post ∧ t.arr = pre ++ y :: x :: post)) ∧
    (Reach GnomeSort.step (GnomeSort.reset GnomeSort.new [3, 1, 2] 3) ⟨[3, 1, 2], 3, 1⟩ ∧
      ∃ t, GnomeSort.step ⟨[3, 1, 2], 3, 1⟩ = some t ∧
        (t.arr = [3, 1, 2] ∨ ∃ pre x y post,
          [3, 1, 2] = pre ++ x :: y :: post ∧ t.arr = pre ++ y :: x :: post)) ∧
    (Reach InsertionSort.step (InsertionSort.reset (InsertionSort.new 0) [2, 1] 2)
        ⟨[2, 2], 2, 1, -1, 1, true⟩ ∧
      ∃ t, InsertionSort.step ⟨[2, 2], 2, 1, -1, 1, true⟩ = some t ∧
        (t.arr = [2, 2] ∨ ∃ k v, k < [2, 2].length ∧ t.arr = [2, 2].set k v)) :=
  ⟨⟨⟨1, by decide⟩, step_atomicity.1 BubbleSort.new [3, 1, 2] _ ⟨1, by decide⟩⟩,
   ⟨⟨0, by decide⟩, step_atomicity.2.1 GnomeSort.new [3, 1, 2] _ ⟨0, by decide⟩⟩,
   ⟨⟨1, by decide⟩, step_atomicity.2.2 (InsertionSort.new 0) [2, 1] _ ⟨1, by decide⟩⟩⟩

/-! ## `reset` discards all prior progress (C10) -/

theorem insertion_sim_observe (s t : InsertionSort) (h : InsertionSort.Sim s t) :
    InsertionSort.observe s = InsertionSort.observe t := by
  obtain ⟨h1, h2, h3, h4, _, _⟩ := h
  simp [InsertionSort.observe, InsertionSort.activeIndex, InsertionSort.isSorted, h1, h2, h3, h4]

theorem insertion_sim_step (s t : InsertionSort) (h : InsertionSort.Sim s t) :
    (InsertionSort.step s = some s ∧ InsertionSort.step t = some t) ∨
      InsertionSort.step s = InsertionSort.step t := by
  obtain ⟨a, n, i, j, key, hold⟩ := s
  obtain ⟨a2, n2, i2, j2, key2, hold2⟩ := t
  obtain ⟨h1, h2, h3, h4, h5, h6⟩ := h
  simp only at h1 h2 h3 h4 h5 h6
  subst h1 h2 h3 h4 h5
  by_cases hd : i ≥ n
  · left
    constructor <;> simp [InsertionSort.step, InsertionSort.isSorted, hd]
  · right
    cases hold with
    | true =>
      rw [h6 rfl]
    | false =>
      simp [InsertionSort.step, InsertionSort.isSorted, hd, InsertionSort.capture]

theorem insertion_sim_iter (k : Nat) :
    ∀ s t : InsertionSort, InsertionSort.Sim s t →
      (iter InsertionSort.step k s).map InsertionSort.observe
        = (iter InsertionSort.step k t).map InsertionSort.observe := by
  induction k with
  | zero =>
    intro s t h
    simp [iter, insertion_sim_observe s t h]
  | succ k ih =>
    intro s t h
    rcases insertion_sim_step s t h with ⟨e1, e2⟩ | e
    · simp only [iter, e1, e2, Option.some_bind]
      exact ih s t h
    · simp only [iter, e]

/-- C10. `reset` discards all prior progress: for each variant, for any two prior
states `s1`, `s2` (arbitrary indices, held key, holding flag, previously bound
sequence) and any sequence `a` of length `n`, the runs started by `reset(a, n)`
agree after every number `k` of `step()` calls (for Bogo with the same draws):
the whole state is the same, except for InsertionSort, whose `key` field
survives `reset` but where the bound sequence, `activeIndex()` and `isSorted()`
still agree at every `k`. -/
theorem reset_discards_prior_state :
    (∀ (s1 s2 : BubbleSort) (a : List Int) (k : Nat),
      iter BubbleSort.step k (BubbleSort.reset s1 a a.length)
        = iter BubbleSort.step k (BubbleSort.reset s2 a a.length)) ∧
    (∀ (s1 s2 : InsertionSort) (a : List Int) (k : Nat),
      (iter InsertionSort.step k (InsertionSort.reset s1 a a.length)).map
          InsertionSort.observe
        = (iter InsertionSort.step k (InsertionSort.reset s2 a a.length)).map
          InsertionSort.observe) ∧
    (∀ (s1 s2 : SelectionSort) (a : List Int) (k : Nat),
      iter SelectionSort.step k (SelectionSort.reset s1 a a.length)
        = iter SelectionSort.step k (SelectionSort.reset s2 a a.length)) ∧
    (∀ (s1 s2 : GnomeSort) (a : List Int) (k : Nat),
      iter GnomeSort.step k (GnomeSort.reset s1 a a.length)
        = iter GnomeSort.step k (GnomeSort.reset s2 a a.length)) ∧
    (∀ (s1 s2 : BogoSort) (a : List Int) (rs : List (Int → Int)),
      BogoSort.run rs (BogoSort.reset s1 a a.length)
        = BogoSort.run rs (BogoSort.reset s2 a a.length)) ∧
    (∀ (s1 s2 : MiracleSort) (a : List Int) (k : Nat),
      iter MiracleSort.step k (MiracleSort.reset s1 a a.length)
        = iter MiracleSort.step k (MiracleSort.reset s2 a a.length)) := by
  refine ⟨?_, ?_, ?_, ?_, ?_, ?_⟩
  · intro s1 s2 a k; rfl
  · intro s1 s2 a k
    exact insertion_sim_iter k _ _ ⟨rfl, rfl, rfl, rfl, rfl, fun h => by cases h⟩
  · intro s1 s2 a k; rfl
  · intro s1 s2 a k; rfl
  · intro s1 s2 a rs; rfl
  · intro s1 s2 a k; rfl

/-! ## Exchanges of two cells are permutations -/

theorem perm_head_exchange (t : List Int) (h : Int) :
    ∀ m, m < t.length → (nth t m :: t.set m h).Perm (h :: t) := by
  induction t with
  | nil => intro m hm; simp at hm
  | cons z t ih =>
    intro m hm
    cases m with
    | zero =>
      simp only [nth_cons_zero, List.set_cons_zero]
      exact List.Perm.swap h z t
    | succ k =>
      have hk : k < t.length := by simpa using hm
      simp only [nth_cons_succ, List.set_cons_succ]
      exact ((List.Perm.swap z (nth t k) (t.set k h)).trans ((ih k hk).cons z)).trans
        (List.Perm.swap h z t)

theorem perm_exchange_lt (a : List Int) :
    ∀ i m, i < m → m < a.length → ((a.set i (nth a m)).set m (nth a i)).Perm a := by
  induction a with
  | nil => intro i m _ hm; simp at hm
  | cons x t ih =>
    intro i m him hm
    cases m with
    | zero => omega
    | succ m =>
      have hm2 : m < t.length := by simpa using hm
      cases i with
      | zero =>
        simp only [nth_cons_succ, nth_cons_zero, List.set_cons_zero, List.set_cons_succ]
        exact perm_head_exchange t x m hm2
      | succ i =>
        simp only [nth_cons_succ, List.set_cons_succ]
        exact (ih i m (by omega) hm2).cons x

theorem swapCells_perm (a : List Int) (i j : Nat) (hi : i < a.length) (hj : j < a.length) :
    (swapCells a i j).Perm a := by
  unfold swapCells
  rcases Nat.lt_trichotomy i j with h | h | h
  · exact perm_exchange_lt a i j h hj
  · subst h
    rw [List.set_set, set_nth_self]
  · rw [List.set_comm _ _ a (by omega : i ≠ j)]
    exact perm_exchange_lt a j i h hi

theorem swapCells_length (a : List Int) (i j : Nat) : (swapCells a i j).length = a.length := by
  simp [swapCells]

/-! ## The Bogo predicate (C11) -/

theorem scan_spec (arr : List Int) (fuel : Nat) :
    ∀ i : Nat, arr.length ≤ fuel + i + 1 →
      ∃ b, BogoSort.scan arr arr.length fuel (i : Int) = some b ∧
        (b = true ↔ ∀ k, i ≤ k → k + 1 < arr.length → nth arr k ≤ nth arr (k + 1)) := by
  induction fuel with
  | zero =>
    intro i h
    have h2 : ¬ ((i : Int) < (arr.length : Int) - 1) := by omega
    refine ⟨true, by simp [BogoSort.scan, h2], ?_⟩
    constructor
    · intro _ k hk1 hk2
      omega
    · intro _
      rfl
  | succ fuel ih =>
    intro i h
    by_cases h2 : (i : Int) < (arr.length : Int) - 1
    · have hi1 : i + 1 < arr.length := by omega
      have hi0 : i < arr.length := by omega
      by_cases hc : nth arr i > nth arr (i + 1)
      · refine ⟨false, by simp [BogoSort.scan, h2, rd_nat arr i hi0, rd_nat_succ arr i hi1, hc],
          ?_⟩
        constructor
        · intro hf
          cases hf
        · intro hall
          have := hall i (le_refl _) hi1
          omega
      · obtain ⟨b, hb, hiff⟩ := ih (i + 1) (by omega)
        have hcast : ((i + 1 : Nat) : Int) = (i : Int) + 1 := by push_cast; rfl
        rw [hcast] at hb
        refine ⟨b, by simp [BogoSort.scan, h2, rd_nat arr i hi0, rd_nat_succ arr i hi1, hc, hb],
          ?_⟩
        constructor
        · intro hbt k hk1 hk2
          by_cases hki : k = i
          · subst hki
            exact not_lt.mp hc
          · exact hiff.mp hbt k (by omega) hk2
        · intro hall
          exact hiff.mpr (fun k hk1 hk2 => hall k (by omega) hk2)
    · refine ⟨true, by simp [BogoSort.scan, h2], ?_⟩
      constructor
      · intro _ k hk1 hk2
        omega
      · intro _
        rfl

theorem bogo_isSorted_spec (s : BogoSort) (h : s.size = s.arr.length) :
    ∃ b, BogoSort.isSorted s = some b ∧
      (b = true ↔ ∀ k, k + 1 < s.arr.length → nth s.arr k ≤ nth s.arr (k + 1)) := by
  obtain ⟨a, n⟩ := s
  simp only at h
  subst h
  obtain ⟨b, hb, hiff⟩ := scan_spec a ((a.length : Int) - 1).toNat 0 (by omega)
  refine ⟨b, by simpa [BogoSort.isSorted] using hb, ?_⟩
  constructor
  · intro hbt k hk
    exact hiff.mp hbt k (Nat.zero_le _) hk
  · intro hall
    exact hiff.mpr (fun k _ hk => hall k hk)

/-- C11. Bogo predicate: in every state reachable from `BogoSort::reset(a, n)`
(under any valid draws, after any number of `step()` calls), `isSorted()`
completes and returns true if and only if `arr[k] <= arr[k+1]` for every `k`
with `0 <= k < n - 1` of the current sequence (so it is true for `n = 0` and
`n = 1`); two reachable states holding the same sequence give the same answer,
whatever steps or shuffles preceded them. -/
theorem bogo_isSorted_iff_adjacent_ordered :
    (∀ (s0 : BogoSort) (a : List Int) (s : BogoSort),
      BogoSort.Reachable (BogoSort.reset s0 a a.length) s →
        ∃ b, BogoSort.isSorted s = some b ∧
          (b = true ↔ ∀ k, k + 1 < s.arr.length → nth s.arr k ≤ nth s.arr (k + 1))) ∧
    (∀ (s0 s1 : BogoSort) (a b : List Int) (s t : BogoSort),
      BogoSort.Reachable (BogoSort.reset s0 a a.length) s →
      BogoSort.Reachable (BogoSort.reset s1 b b.length) t →
        s.arr = t.arr → BogoSort.isSorted s = BogoSort.isSorted t) := by
  refine ⟨?_, ?_⟩
  · intro s0 a s h
    exact bogo_isSorted_spec s (BogoSort.bogo_reach s0 a s h).1
  · intro s0 s1 a b s t hs ht e
    have h1 := (BogoSort.bogo_reach s0 a s hs).1
    have h2 := (BogoSort.bogo_reach s1 b t ht).1
    obtain ⟨sa, sn⟩ := s
    obtain ⟨ta, tn⟩ := t
    simp only at h1 h2 e
    subst h1 h2 e
    rfl

theorem bogo_isSorted_iff_adjacent_ordered_witness :
    (BogoSort.Reachable (BogoSort.reset BogoSort.new [3, 1, 2] 3) ⟨[1, 2, 3], 3⟩ ∧
      ∃ b, BogoSort.isSorted ⟨[1, 2, 3], 3⟩ = some b ∧
        (b = true ↔ ∀ k, k + 1 < [1, 2, 3].length →
          nth [1, 2, 3] k ≤ nth [1, 2, 3] (k + 1))) ∧
    (BogoSort.Reachable (BogoSort.reset BogoSort.new [3, 1, 2] 3) ⟨[1, 2, 3], 3⟩ ∧
      BogoSort.Reachable (BogoSort.reset BogoSort.new [1, 2, 3] 3) ⟨[1, 2, 3], 3⟩ ∧
      BogoSort.isSorted ⟨[1, 2, 3], 3⟩ = BogoSort.isSorted ⟨[1, 2, 3], 3⟩) :=
  have hv : ValidDraw (fun _ => 0) := fun _ h => ⟨le_refl _, le_of_lt h⟩
  have h1 : BogoSort.Reachable (BogoSort.reset BogoSort.new [3, 1, 2] 3) ⟨[1, 2, 3], 3⟩ :=
    ⟨[fun _ => 0], by intro r hr; simp at hr; subst hr; exact hv, by decide⟩
  have h2 : BogoSort.Reachable (BogoSort.reset BogoSort.new [1, 2, 3] 3) ⟨[1, 2, 3], 3⟩ :=
    ⟨[], fun _ hr => absurd hr (List.not_mem_nil _), rfl⟩
  ⟨⟨h1, bogo_isSorted_iff_adjacent_ordered.1 BogoSort.new [3, 1, 2] _ h1⟩,
   ⟨h1, h2, bogo_isSorted_iff_adjacent_ordered.2 BogoSort.new BogoSort.new [3, 1, 2] [1, 2, 3]
     _ _ h1 h2 rfl⟩⟩

/-! ## Miracle degeneracy (C12) -/

/-- C12. Miracle degeneracy: for every integer sequence `a` (ordered or not) and
every number `k` of `step()` calls after `MiracleSort::reset(a, n)` (also
`k = 0`), `isSorted()` is true, `activeIndex()` is 0 and the bound sequence is
exactly `a`; hence on `[2, 1]` MiracleSort reports sorted while the sequence is
not non-descending. -/
theorem miracle_degenerate :
    (∀ (s0 : MiracleSort) (a : List Int) (k : Nat),
      ∃ t, iter MiracleSort.step k (MiracleSort.reset s0 a a.length) = some t ∧
        t.isSorted = true ∧ t.activeIndex = 0 ∧ t.arr = a) ∧
    (∃ a : List Int, (MiracleSort.reset MiracleSort.new a a.length).isSorted = true ∧
      ¬ (MiracleSort.reset MiracleSort.new a a.length).arr.Sorted (· ≤ ·)) := by
  refine ⟨?_, ⟨[2, 1], rfl, by decide⟩⟩
  intro s0 a k
  obtain ⟨t, e, ht⟩ := iter_inv MiracleSort.step
    (fun s => s = MiracleSort.reset s0 a a.length) (fun u hu => ⟨u, rfl, hu⟩) k _ rfl
  exact ⟨t, e, rfl, rfl, by rw [ht]; rfl⟩

/-! ## The two scenarios of the specification (C13, C14) -/

/-- C13, as stated, fails: on `[2,1]` the first `step()` does not only capture
the key, it also performs the shift in the same call (sequence `[2,2]`,
`j = -1`, not `[2,1]`, `j = 0`), and `isSorted()` is already true after the
second `step()`. -/
theorem insertion_scenario_counterexample :
    (iter InsertionSort.step 1 (InsertionSort.reset (InsertionSort.new 0) [2, 1] 2)).map
        (fun s => (s.arr, s.j, s.key, s.holdingKey)) = some ([2, 2], -1, 1, true) ∧
    (iter InsertionSort.step 1 (InsertionSort.reset (InsertionSort.new 0) [2, 1] 2)).map
        (fun s => (s.arr, s.j, s.key, s.holdingKey)) ≠ some ([2, 1], 0, 1, true) ∧
    (iter InsertionSort.step 2 (InsertionSort.reset (InsertionSort.new 0) [2, 1] 2)).map
        InsertionSort.isSorted = some true := by
  decide

/-- C13, amended. Insertion scenario on `[2,1]`, size 2, from `reset` (whatever
the prior state): step 1 captures the key (`key = 1`) and, in the same call,
performs the shift, giving sequence `[2,2]`, `j = -1`, holding = true; step 2
places the key at index 0, giving `[1,2]`, holding = false, `i = 2`;
`isSorted()` is false after `reset` and after step 1 and first becomes true
after step 2. -/
theorem insertion_scenario (s0 : InsertionSort) :
    (InsertionSort.reset s0 [2, 1] 2).isSorted = false ∧
    iter InsertionSort.step 1 (InsertionSort.reset s0 [2, 1] 2)
      = some ⟨[2, 2], 2, 1, -1, 1, true⟩ ∧
    InsertionSort.isSorted ⟨[2, 2], 2, 1, -1, 1, true⟩ = false ∧
    iter InsertionSort.step 2 (InsertionSort.reset s0 [2, 1] 2)
      = some ⟨[1, 2], 2, 2, -1, 1, false⟩ ∧
    InsertionSort.isSorted ⟨[1, 2], 2, 2, -1, 1, false⟩ = true := by
  refine ⟨rfl, rfl, rfl, rfl, rfl⟩

/-- C14. Bubble scenario on `[3,1,2]`, size 3, from `reset` (whatever the prior
state): after step 1 the sequence is `[1,3,2]` with `j = 1`; after step 2 it is
`[1,2,3]` with `j = 2`; after step 3 the sequence is unchanged with `i = 1`,
`j = 0`; after step 4 it is unchanged with `i = 1`, `j = 1`; `isSorted()` is
false after each of the steps 1-4 and becomes true at the fifth step, where `i`
reaches 2. -/
theorem bubble_scenario (s0 : BubbleSort) :
    iter BubbleSort.step 1 (BubbleSort.reset s0 [3, 1, 2] 3) = some ⟨[1, 3, 2], 3, 0, 1⟩ ∧
    iter BubbleSort.step 2 (BubbleSort.reset s0 [3, 1, 2] 3) = some ⟨[1, 2, 3], 3, 0, 2⟩ ∧
    iter BubbleSort.step 3 (BubbleSort.reset s0 [3, 1, 2] 3) = some ⟨[1, 2, 3], 3, 1, 0⟩ ∧
    iter BubbleSort.step 4 (BubbleSort.reset s0 [3, 1, 2] 3) = some ⟨[1, 2, 3], 3, 1, 1⟩ ∧
    iter BubbleSort.step 5 (BubbleSort.reset s0 [3, 1, 2] 3) = some ⟨[1, 2, 3], 3, 2, 0⟩ ∧
    BubbleSort.isSorted ⟨[1, 3, 2], 3, 0, 1⟩ = false ∧
    BubbleSort.isSorted ⟨[1, 2, 3], 3, 0, 2⟩ = false ∧
    BubbleSort.isSorted ⟨[1, 2, 3], 3, 1, 0⟩ = false ∧
    BubbleSort.isSorted ⟨[1, 2, 3], 3, 1, 1⟩ = false ∧
    BubbleSort.isSorted ⟨[1, 2, 3], 3, 2, 0⟩ = true := by
  refine ⟨rfl, rfl, rfl, rfl, rfl, rfl, rfl, rfl, rfl, rfl⟩

/-! ## Strategies that were never reset (C17) -/

/-- C17. Freshly constructed (never reset) strategies are inert: for each of the
six variants, in the constructor state (`arr = null`, modelled by the empty
array on which every access fails, and `size = 0`) `isSorted()` returns true
and `step()` returns the very same state, so it changes no field and performs no
array access; and the gate of the driver loop, which calls `step()` only when
`isSorted()` is false, never steps such a strategy. -/
theorem fresh_strategy_is_inert :
    (BubbleSort.new.isSorted = true ∧ BubbleSort.step BubbleSort.new = some BubbleSort.new) ∧
    (∀ key0 : Int, (InsertionSort.new key0).isSorted = true ∧
      InsertionSort.step (InsertionSort.new key0) = some (InsertionSort.new key0)) ∧
    (SelectionSort.new.isSorted = true ∧
      SelectionSort.step SelectionSort.new = some SelectionSort.new) ∧
    (GnomeSort.new.isSorted = true ∧ GnomeSort.step GnomeSort.new = some GnomeSort.new) ∧
    (∀ r : Int → Int, BogoSort.new.isSorted = some true ∧
      BogoSort.step r BogoSort.new = some BogoSort.new) ∧
    (MiracleSort.new.isSorted = true ∧
      MiracleSort.step MiracleSort.new = some MiracleSort.new) ∧
    (∀ (k v : Int), rd [] k = none ∧ wr [] k v = none) ∧
    (∀ paused due : Bool, driverCallsStep paused due true = false) := by
  refine ⟨⟨rfl, rfl⟩, fun _ => ⟨rfl, rfl⟩, ⟨rfl, rfl⟩, ⟨rfl, rfl⟩, fun _ => ⟨rfl, rfl⟩,
    ⟨rfl, rfl⟩, ?_, ?_⟩
  · intro k v
    simp [rd, wr]
  · intro paused due
    simp [driverCallsStep]

/-! ## Bubble does not stop early (C20) -/

/-- C20, as stated, fails: there is no integer sequence of size at most 2 (nor
of any size) from whose `reset` state BubbleSort reaches a state in which
`isSorted()` is true while the bound sequence is not non-descending. -/
theorem bubble_early_stop_counterexample :
    ¬ ∃ (s0 : BubbleSort) (a : List Int) (s : BubbleSort), a.length ≤ 2 ∧
      Reach BubbleSort.step (BubbleSort.reset s0 a a.length) s ∧
      s.isSorted = true ∧ ¬ s.arr.Sorted (· ≤ ·) := by
  rintro ⟨s0, a, s, _, hr, hd, hns⟩
  exact hns (BubbleSort.bubble_sorted_of_done s (bubble_reach s0 a s hr).1 hd)

/-- C20, amended. For every integer sequence, of size at most 2 or larger, the
pass-completion check `i >= size - 1` of BubbleSort does not stop a pass early:
in every state reachable from `reset` in which `isSorted()` is true the bound
sequence is non-descending. -/
theorem bubble_no_early_stop (s0 : BubbleSort) (a : List Int) (s : BubbleSort)
    (hr : Reach BubbleSort.step (BubbleSort.reset s0 a a.length) s)
    (hd : s.isSorted = true) : s.arr.Sorted (· ≤ ·) :=
  BubbleSort.bubble_sorted_of_done s (bubble_reach s0 a s hr).1 hd

theorem bubble_no_early_stop_witness :
    ([2, 1] : List Int).length ≤ 2 ∧
    Reach BubbleSort.step (BubbleSort.reset BubbleSort.new [2, 1] 2) ⟨[1, 2], 2, 1, 0⟩ ∧
    BubbleSort.isSorted ⟨[1, 2], 2, 1, 0⟩ = true ∧
    ([1, 2] : List Int).Sorted (· ≤ ·) :=
  ⟨by decide, ⟨2, by decide⟩, by decide,
    bubble_no_early_stop BubbleSort.new [2, 1] ⟨[1, 2], 2, 1, 0⟩ ⟨2, by decide⟩ (by decide)⟩

/-! ## Exact step counts (C18, C19) -/

/-- With a potential that is zero in terminal states, the terminal state is
reached for the first time after exactly `μ init` steps. -/
theorem iter_exact {S : Type} (f : S → Option S) (done : S → Bool) (I : S → Prop)
    (μ : S → Nat)
    (hstep : ∀ s, I s → done s = false → ∃ t, f s = some t ∧ I t ∧ μ t + 1 = μ s)
    (hdone : ∀ s, I s → done s = true → μ s = 0) (s : S) (hs : I s) :
    ∃ t, iter f (μ s) s = some t ∧ done t = true ∧ I t ∧
      ∀ k2, k2 < μ s → ∃ u, iter f k2 s = some u ∧ done u = false := by
  obtain ⟨k, t, e, hd, ht, hk, hfirst⟩ := iter_reach f done I μ hstep (μ s) s hs rfl
  have h0 := hdone t ht hd
  have hk2 : k = μ s := by omega
  subst hk2
  exact ⟨t, e, hd, ht, hfirst⟩

theorem tri_count (n : Nat) : n * (n + 1) / 2 - 1 = tri (n - 1) + (n - 1) := by
  cases n with
  | zero => simp [tri]
  | succ m =>
    have h := two_tri m
    have e : (m + 1) * (m + 1 + 1) = m * (m + 1) + 2 * m + 2 := by ring
    simp only [Nat.add_sub_cancel]
    rw [e]
    omega

/-- C18. Data-independent step count: for every integer sequence of length `n`,
BubbleSort and SelectionSort each reach `isSorted() == true` for the first time
after exactly `n(n+1)/2 - 1` calls to `step()` from `reset`, whatever the
contents of the sequence: the state after that many calls is sorted and the
state after any smaller number of calls is not (for `n = 0` the count, taken
in the natural numbers, is 0). -/
theorem bubble_selection_step_count :
    (∀ (s0 : BubbleSort) (a : List Int),
      ∃ t, iter BubbleSort.step (a.length * (a.length + 1) / 2 - 1)
          (BubbleSort.reset s0 a a.length) = some t ∧ t.isSorted = true ∧
        ∀ k, k < a.length * (a.length + 1) / 2 - 1 →
          ∃ u, iter BubbleSort.step k (BubbleSort.reset s0 a a.length) = some u ∧
            u.isSorted = false) ∧
    (∀ (s0 : SelectionSort) (a : List Int),
      ∃ t, iter SelectionSort.step (a.length * (a.length + 1) / 2 - 1)
          (SelectionSort.reset s0 a a.length) = some t ∧ t.isSorted = true ∧
        ∀ k, k < a.length * (a.length + 1) / 2 - 1 →
          ∃ u, iter SelectionSort.step k (SelectionSort.reset s0 a a.length) = some u ∧
            u.isSorted = false) := by
  refine ⟨?_, ?_⟩
  · intro s0 a
    obtain ⟨t, e, hd, _, hfirst⟩ :=
      iter_exact BubbleSort.step BubbleSort.isSorted BubbleSort.Inv BubbleSort.pot
        (fun s hs hns => by
          obtain ⟨t, e, ht, _, hp, _⟩ := BubbleSort.bubble_step_spec s hs
          exact ⟨t, e, ht, hp hns⟩)
        BubbleSort.bubble_pot_done
        (BubbleSort.reset s0 a a.length) (BubbleSort.bubble_inv_reset s0 a)
    rw [BubbleSort.bubble_pot_reset, ← tri_count] at e hfirst
    exact ⟨t, e, hd, hfirst⟩
  · intro s0 a
    obtain ⟨t, e, hd, _, hfirst⟩ :=
      iter_exact SelectionSort.step SelectionSort.isSorted SelectionSort.Inv SelectionSort.pot
        (fun s hs hns => by
          obtain ⟨t, e, ht, _, hp, _⟩ := SelectionSort.selection_step_spec s hs
          exact ⟨t, e, ht, hp hns⟩)
        SelectionSort.selection_pot_done
        (SelectionSort.reset s0 a a.length) (SelectionSort.selection_inv_reset s0 a)
    rw [SelectionSort.selection_pot_reset, ← tri_count] at e hfirst
    exact ⟨t, e, hd, hfirst⟩

theorem bubble_selection_step_count_witness :
    (∃ t, iter BubbleSort.step 5 (BubbleSort.reset BubbleSort.new [3, 1, 2] 3) = some t ∧
      t.isSorted = true) ∧
    (∃ u, iter BubbleSort.step 4 (BubbleSort.reset BubbleSort.new [3, 1, 2] 3) = some u ∧
      u.isSorted = false) ∧
    (∃ t, iter SelectionSort.step 5 (SelectionSort.reset SelectionSort.new [3, 1, 2] 3)
        = some t ∧ t.isSorted = true) ∧
    (∃ u, iter SelectionSort.step 4 (SelectionSort.reset SelectionSort.new [3, 1, 2] 3)
        = some u ∧ u.isSorted = false) :=
  have hb := bubble_selection_step_count.1 BubbleSort.new [3, 1, 2]
  have hs := bubble_selection_step_count.2 SelectionSort.new [3, 1, 2]
  ⟨hb.imp (fun _ h => ⟨h.1, h.2.1⟩), hb.elim (fun _ h => h.2.2 4 (by decide)),
   hs.imp (fun _ h => ⟨h.1, h.2.1⟩), hs.elim (fun _ h => h.2.2 4 (by decide))⟩

/-- C19. Inversion-determined step count: for every integer sequence `a` of
length `n` with `inv a` the number of pairs `p < q` with `a[p] > a[q]`,
InsertionSort reaches `isSorted() == true` for the first time after exactly
`(n - 1) + inv a` calls to `step()` from `reset`, and GnomeSort after exactly
`(n - 1) + 2 * inv a` calls: the state after that many calls is sorted and the
state after any smaller number of calls is not. -/
theorem insertion_gnome_step_count :
    (∀ (s0 : InsertionSort) (a : List Int),
      ∃ t, iter InsertionSort.step ((a.length - 1) + inv a)
          (InsertionSort.reset s0 a a.length) = some t ∧ t.isSorted = true ∧
        ∀ k, k < (a.length - 1) + inv a →
          ∃ u, iter InsertionSort.step k (InsertionSort.reset s0 a a.length) = some u ∧
            u.isSorted = false) ∧
    (∀ (s0 : GnomeSort) (a : List Int),
      ∃ t, iter GnomeSort.step ((a.length - 1) + 2 * inv a)
          (GnomeSort.reset s0 a a.length) = some t ∧ t.isSorted = true ∧
        ∀ k, k < (a.length - 1) + 2 * inv a →
          ∃ u, iter GnomeSort.step k (GnomeSort.reset s0 a a.length) = some u ∧
            u.isSorted = false) := by
  refine ⟨?_, ?_⟩
  · intro s0 a
    obtain ⟨t, e, hd, _, hfirst⟩ :=
      iter_exact InsertionSort.step InsertionSort.isSorted InsertionSort.Inv InsertionSort.pot
        (fun s hs hns => by
          obtain ⟨t, e, ht, _, hp, _⟩ := InsertionSort.insertion_step_spec s hs
          exact ⟨t, e, ht, hp hns⟩)
        InsertionSort.insertion_pot_done
        (InsertionSort.reset s0 a a.length) (InsertionSort.insertion_inv_reset s0 a)
    rw [InsertionSort.insertion_pot_reset, Nat.add_comm] at e hfirst
    exact ⟨t, e, hd, hfirst⟩
  · intro s0 a
    obtain ⟨t, e, hd, _, hfirst⟩ :=
      iter_exact GnomeSort.step GnomeSort.isSorted GnomeSort.Inv GnomeSort.pot
        (fun s hs hns => by
          obtain ⟨t, e, ht, _, hp, _⟩ := GnomeSort.gnome_step_spec s hs
          exact ⟨t, e, ht, hp hns⟩)
        GnomeSort.gnome_pot_done
        (GnomeSort.reset s0 a a.length) (GnomeSort.gnome_inv_reset s0 a)
    rw [GnomeSort.gnome_pot_reset, Nat.add_comm] at e hfirst
    exact ⟨t, e, hd, hfirst⟩

theorem insertion_gnome_step_count_witness :
    inv [3, 1, 2] = 2 ∧
    (∃ t, iter InsertionSort.step 4 (InsertionSort.reset (InsertionSort.new 0) [3, 1, 2] 3)
        = some t ∧ t.isSorted = true) ∧
    (∃ u, iter InsertionSort.step 3 (InsertionSort.reset (InsertionSort.new 0) [3, 1, 2] 3)
        = some u ∧ u.isSorted = false) ∧
    (∃ t, iter GnomeSort.step 6 (GnomeSort.reset GnomeSort.new [3, 1, 2] 3) = some t ∧
      t.isSorted = true) ∧
    (∃ u, iter GnomeSort.step 5 (GnomeSort.reset GnomeSort.new [3, 1, 2] 3) = some u ∧
      u.isSorted = false) :=
  have hi := insertion_gnome_step_count.1 (InsertionSort.new 0) [3, 1, 2]
  have hg := insertion_gnome_step_count.2 GnomeSort.new [3, 1, 2]
  ⟨by decide, hi.imp (fun _ h => ⟨h.1, h.2.1⟩), hi.elim (fun _ h => h.2.2 3 (by decide)),
   hg.imp (fun _ h => ⟨h.1, h.2.1⟩), hg.elim (fun _ h => h.2.2 5 (by decide))⟩

/-! ## Permutation preservation (C15) -/

theorem perm_of_adjacent (s t : List Int)
    (h : t = s ∨ ∃ pre x y post, s = pre ++ x :: y :: post ∧ t = pre ++ y :: x :: post) :
    t.Perm s := by
  rcases h with h | ⟨pre, x, y, post, e1, e2⟩
  · rw [h]
  · rw [e1, e2]
    exact List.Perm.append_left pre (List.Perm.swap x y post)

theorem bubble_reach_perm (s0 : BubbleSort) (a : List Int) (s : BubbleSort)
    (h : Reach BubbleSort.step (BubbleSort.reset s0 a a.length) s) : s.arr.Perm a := by
  refine (reach_inv BubbleSort.step (fun s => BubbleSort.Inv s ∧ s.arr.Perm a) ?_
    _ s ⟨BubbleSort.bubble_inv_reset s0 a, List.Perm.refl a⟩ h).2
  intro u ⟨hu, hp⟩
  obtain ⟨t, e, ht, _, _, hw⟩ := BubbleSort.bubble_step_spec u hu
  exact ⟨t, e, ht, (perm_of_adjacent u.arr t.arr hw).trans hp⟩

theorem gnome_reach_perm (s0 : GnomeSort) (a : List Int) (s : GnomeSort)
    (h : Reach GnomeSort.step (GnomeSort.reset s0 a a.length) s) : s.arr.Perm a := by
  refine (reach_inv GnomeSort.step (fun s => GnomeSort.Inv s ∧ s.arr.Perm a) ?_
    _ s ⟨GnomeSort.gnome_inv_reset s0 a, List.Perm.refl a⟩ h).2
  intro u ⟨hu, hp⟩
  obtain ⟨t, e, ht, _, _, hw⟩ := GnomeSort.gnome_step_spec u hu
  exact ⟨t, e, ht, (perm_of_adjacent u.arr t.arr hw).trans hp⟩

theorem selection_step_perm (s : SelectionSort) (h : SelectionSort.Inv s) (t : SelectionSort)
    (e : SelectionSort.step s = some t) : t.arr.Perm s.arr := by
  obtain ⟨a, n, si, sj, sm⟩ := s
  obtain ⟨i, j, m, hi, hj, hm, hn, hb, _, _⟩ := h
  simp only at hi hj hm hn hb
  subst hi hj hm hn
  by_cases hs : ((i : Int) ≥ (a.length : Int) - 1)
  · have e2 : SelectionSort.step ⟨a, a.length, i, j, m⟩ = some ⟨a, a.length, i, j, m⟩ := by
      simp [SelectionSort.step, SelectionSort.isSorted, hs]
    rw [e2] at e
    cases e
    exact List.Perm.refl a
  · have hns : SelectionSort.isSorted ⟨a, a.length, i, j, m⟩ = false := by
      simp [SelectionSort.isSorted, hs]
    have hi1 : (i : Int) < (a.length : Int) - 1 := by omega
    have hb2 : i + 1 ≤ j ∧ j ≤ a.length ∧ i ≤ m ∧ m < j := by omega
    obtain ⟨hb_ij, hb_j, hb_im, hb_mj⟩ := hb2
    have hm0 : m < a.length := by omega
    have hi0 : i < a.length := by omega
    by_cases hlt : ((j : Int) < (a.length : Int))
    · have hj0 : j < a.length := by omega
      by_cases hcmp : nth a j < nth a m
      · have e2 : SelectionSort.step ⟨a, a.length, i, j, m⟩
            = some ⟨a, a.length, i, (j : Int) + 1, j⟩ := by
          simp [SelectionSort.step, hns, hi1, hlt, rd_nat a j hj0, rd_nat a m hm0, hcmp]
        rw [e2] at e
        cases e
        exact List.Perm.refl a
      · have e2 : SelectionSort.step ⟨a, a.length, i, j, m⟩
            = some ⟨a, a.length, i, (j : Int) + 1, m⟩ := by
          simp [SelectionSort.step, hns, hi1, hlt, rd_nat a j hj0, rd_nat a m hm0, hcmp]
        rw [e2] at e
        cases e
        exact List.Perm.refl a
    · have e2 : SelectionSort.step ⟨a, a.length, i, j, m⟩
          = some ⟨(a.set i (nth a m)).set m (nth a i), a.length, (i : Int) + 1,
              (i : Int) + 1 + 1, (i : Int) + 1⟩ := by
        have hw := wr_nat (a.set i (nth a m)) m (nth a i) (by simpa using hm0)
        simp [SelectionSort.step, hns, hi1, hlt, rd_nat a i hi0, rd_nat a m hm0,
          wr_nat a i _ hi0, hw]
      rw [e2] at e
      cases e
      exact swapCells_perm a i m hi0 hm0

theorem selection_reach_perm (s0 : SelectionSort) (a : List Int) (s : SelectionSort)
    (h : Reach SelectionSort.step (SelectionSort.reset s0 a a.length) s) : s.arr.Perm a := by
  refine (reach_inv SelectionSort.step (fun s => SelectionSort.Inv s ∧ s.arr.Perm a) ?_
    _ s ⟨SelectionSort.selection_inv_reset s0 a, List.Perm.refl a⟩ h).2
  intro u ⟨hu, hp⟩
  obtain ⟨t, e, ht, _⟩ := SelectionSort.selection_step_spec u hu
  exact ⟨t, e, ht, (selection_step_perm u hu t e).trans hp⟩

theorem insertion_capture_logical (s : InsertionSort) (h : InsertionSort.InvN s)
    (hd : InsertionSort.isSorted s = false) (t : InsertionSort)
    (e : InsertionSort.capture s = some t) :
    InsertionSort.logical t = InsertionSort.logical s := by
  obtain ⟨a, n, si, sj, key, hold⟩ := s
  obtain ⟨hh, i, hi, hn, h1, hb, _, _, _⟩ := h
  simp only at hh hi hn h1 hb
  subst hh hi hn
  simp only [InsertionSort.isSorted, decide_eq_false_iff_not] at hd
  have hi0 : i < a.length := by omega
  have e2 : InsertionSort.capture ⟨a, a.length, i, sj, key, false⟩
      = some ⟨a, a.length, i, (i : Int) - 1, nth a i, true⟩ := by
    simp [InsertionSort.capture, rd_nat a i hi0]
  rw [e2] at e
  cases e
  have e1 : ((i : Int) - 1 + 1).toNat = i := by omega
  simp only [InsertionSort.logical, e1, set_nth_self]
  simp

theorem insertion_shiftOrPlace_logical (s : InsertionSort) (h : InsertionSort.InvH s)
    (t : InsertionSort) (e : InsertionSort.shiftOrPlace s = some t) :
    (InsertionSort.logical t).Perm (InsertionSort.logical s) := by
  obtain ⟨a, n, si, sj, key, hold⟩ := s
  obtain ⟨hh, i, h, hi, hj, hn, h1, hi0, hhi, _, _⟩ := h
  simp only at hh hi hj hn h1 hi0 hhi
  subst hh hi hn
  have hh0 : h < a.length := by omega
  have e0 : (sj + 1).toNat = h := by omega
  cases h with
  | zero =>
    have hj2 : sj = -1 := by omega
    subst hj2
    have e2 : InsertionSort.shiftOrPlace ⟨a, a.length, i, -1, key, true⟩
        = some ⟨a.set 0 key, a.length, (i : Int) + 1, -1, key, false⟩ := by
      have hw := wr_nat a 0 key hh0
      simp only [Nat.cast_zero] at hw
      simp [InsertionSort.shiftOrPlace, InsertionSort.shiftCond, hw]
    rw [e2] at e
    cases e
    simp [InsertionSort.logical]
  | succ k =>
    have hj2 : sj = (k : Int) := by omega
    subst hj2
    have hk0 : k < a.length := by omega
    by_cases hc : nth a k > key
    · have e2 : InsertionSort.shiftOrPlace ⟨a, a.length, i, k, key, true⟩
          = some ⟨a.set (k + 1) (nth a k), a.length, i, (k : Int) - 1, key, true⟩ := by
        simp [InsertionSort.shiftOrPlace, InsertionSort.shiftCond, rd_nat a k hk0, hc,
          wr_nat_succ a k _ hh0]
      rw [e2] at e
      cases e
      obtain ⟨pre, post, e1, e3⟩ := shift_logical a k key hh0
      have e4 : ((k : Int) - 1 + 1).toNat = k := by omega
      have e5 : ((k : Int) + 1).toNat = k + 1 := by omega
      simp only [InsertionSort.logical, e4, e5, if_true]
      rw [e1, e3]
      exact List.Perm.append_left pre (List.Perm.swap (nth a k) key post)
    · have e2 : InsertionSort.shiftOrPlace ⟨a, a.length, i, k, key, true⟩
          = some ⟨a.set (k + 1) key, a.length, (i : Int) + 1, k, key, false⟩ := by
        simp [InsertionSort.shiftOrPlace, InsertionSort.shiftCond, rd_nat a k hk0, hc,
          wr_nat_succ a k _ hh0]
      rw [e2] at e
      cases e
      have e5 : ((k : Int) + 1).toNat = k + 1 := by omega
      simp [InsertionSort.logical, e5]

theorem insertion_step_logical (s : InsertionSort) (h : InsertionSort.Inv s)
    (t : InsertionSort) (e : InsertionSort.step s = some t) :
    (InsertionSort.logical t).Perm (InsertionSort.logical s) := by
  cases hd : InsertionSort.isSorted s with
  | true =>
    have e2 : InsertionSort.step s = some s := by simp [InsertionSort.step, hd]
    rw [e2] at e
    cases e
    exact List.Perm.refl _
  | false =>
    rcases h with hN | hH
    · obtain ⟨u, e1, hu, _, _⟩ := InsertionSort.insertion_capture_spec s hN hd
      have e3 : InsertionSort.shiftOrPlace u = some t := by
        simpa [InsertionSort.step, hd, e1] using e
      rw [← insertion_capture_logical s hN hd u e1]
      exact insertion_shiftOrPlace_logical u hu t e3
    · have e1 : InsertionSort.capture s = some s := by simp [InsertionSort.capture, hH.1]
      have e3 : InsertionSort.shiftOrPlace s = some t := by
        simpa [InsertionSort.step, hd, e1] using e
      exact insertion_shiftOrPlace_logical s hH t e3

theorem insertion_reach_perm (s0 : InsertionSort) (a : List Int) (s : InsertionSort)
    (h : Reach InsertionSort.step (InsertionSort.reset s0 a a.length) s) :
    InsertionSort.Inv s ∧ (InsertionSort.logical s).Perm a := by
  refine reach_inv InsertionSort.step
    (fun s => InsertionSort.Inv s ∧ (InsertionSort.logical s).Perm a) ?_
    _ s ⟨InsertionSort.insertion_inv_reset s0 a, List.Perm.refl a⟩ h
  intro u ⟨hu, hp⟩
  obtain ⟨t, e, ht, _⟩ := InsertionSort.insertion_step_spec u hu
  exact ⟨t, e, ht, (insertion_step_logical u hu t e).trans hp⟩

/-- C15. Permutation preservation: for every integer sequence `a` of length `n`,
the bound sequence of BubbleSort, SelectionSort and GnomeSort is a permutation
of `a` (same multiset of keys, duplicates included) in every state reachable
from `reset(a, n)`, hence after every single `step()` and in the state where
`isSorted()` first becomes true; for InsertionSort the bound sequence is a
permutation of `a` in every reachable state in which no key is held, and in
particular in every reachable state in which `isSorted()` is true. -/
theorem sorting_preserves_keys :
    (∀ (s0 : BubbleSort) (a : List Int) (s : BubbleSort),
      Reach BubbleSort.step (BubbleSort.reset s0 a a.length) s → s.arr.Perm a) ∧
    (∀ (s0 : SelectionSort) (a : List Int) (s : SelectionSort),
      Reach SelectionSort.step (SelectionSort.reset s0 a a.length) s → s.arr.Perm a) ∧
    (∀ (s0 : GnomeSort) (a : List Int) (s : GnomeSort),
      Reach GnomeSort.step (GnomeSort.reset s0 a a.length) s → s.arr.Perm a) ∧
    (∀ (s0 : InsertionSort) (a : List Int) (s : InsertionSort),
      Reach InsertionSort.step (InsertionSort.reset s0 a a.length) s →
        (s.holdingKey = false → s.arr.Perm a) ∧ (s.isSorted = true → s.arr.Perm a)) := by
  refine ⟨bubble_reach_perm, selection_reach_perm, gnome_reach_perm, ?_⟩
  intro s0 a s h
  obtain ⟨hi, hp⟩ := insertion_reach_perm s0 a s h
  have hN : s.holdingKey = false → s.arr.Perm a := by
    intro hh
    simpa [InsertionSort.logical, hh] using hp
  refine ⟨hN, ?_⟩
  intro hd
  rcases hi with hn | ⟨_, i, k, hi2, _, hsz, _, hi0, _⟩
  · exact hN hn.1
  · simp only [InsertionSort.isSorted, decide_eq_true_eq] at hd
    omega

theorem sorting_preserves_keys_witness :
    (Reach BubbleSort.step (BubbleSort.reset BubbleSort.new [3, 1, 2] 3) ⟨[1, 3, 2], 3, 0, 1⟩ ∧
      ([1, 3, 2] : List Int).Perm [3, 1, 2]) ∧
    (Reach SelectionSort.step (SelectionSort.reset SelectionSort.new [3, 1, 2] 3)
        ⟨[1, 3, 2], 3, 1, 2, 1⟩ ∧ ([1, 3, 2] : List Int).Perm [3, 1, 2]) ∧
    (Reach GnomeSort.step (GnomeSort.reset GnomeSort.new [3, 1, 2] 3) ⟨[1, 3, 2], 3, 0⟩ ∧
      ([1, 3, 2] : List Int).Perm [3, 1, 2]) ∧
    (Reach InsertionSort.step (InsertionSort.reset (InsertionSort.new 0) [2, 1] 2)
        ⟨[1, 2], 2, 2, -1, 1, false⟩ ∧
      InsertionSort.isSorted ⟨[1, 2], 2, 2, -1, 1, false⟩ = true ∧
      ([1, 2] : List Int).Perm [2, 1]) :=
  ⟨⟨⟨1, by decide⟩,
    sorting_preserves_keys.1 BubbleSort.new [3, 1, 2] ⟨[1, 3, 2], 3, 0, 1⟩ ⟨1, by decide⟩⟩,
   ⟨⟨3, by decide⟩,
    sorting_preserves_keys.2.1 SelectionSort.new [3, 1, 2] ⟨[1, 3, 2], 3, 1, 2, 1⟩
      ⟨3, by decide⟩⟩,
   ⟨⟨1, by decide⟩,
    sorting_preserves_keys.2.2.1 GnomeSort.new [3, 1, 2] ⟨[1, 3, 2], 3, 0⟩ ⟨1, by decide⟩⟩,
   ⟨⟨2, by decide⟩, by decide,
    (sorting_preserves_keys.2.2.2 (InsertionSort.new 0) [2, 1] ⟨[1, 2], 2, 2, -1, 1, false⟩
      ⟨2, by decide⟩).2 (by decide)⟩⟩

/-! ## The Bogo shuffle is a Fisher-Yates pass (C16) -/

theorem shuffleLoop_eq_fisherYates (r : Int → Int) (hr : ValidDraw r) :
    ∀ (i : Nat) (arr : List Int), (i < arr.length ∨ i = 0) →
      BogoSort.shuffleLoop r i arr = some (fisherYates r i arr) ∧
        (fisherYates r i arr).Perm arr := by
  intro i
  induction i with
  | zero =>
    intro arr _
    exact ⟨rfl, List.Perm.refl arr⟩
  | succ i ih =>
    intro arr h
    have hi : i + 1 < arr.length := by omega
    obtain ⟨h0, h1⟩ := hr ((i : Int) + 1) (by omega)
    obtain ⟨jn, hj⟩ : ∃ jn : Nat, r ((i : Int) + 1) = (jn : Int) :=
      ⟨(r ((i : Int) + 1)).toNat, by omega⟩
    have hjn : jn < arr.length := by omega
    obtain ⟨e, hp⟩ := ih (swapCells arr (i + 1) jn) (by rw [swapCells_length]; omega)
    have hw := wr_nat (arr.set (i + 1) (nth arr jn)) jn (nth arr (i + 1)) (by simpa using hjn)
    have hfy : fisherYates r (i + 1) arr = fisherYates r i (swapCells arr (i + 1) jn) := by
      simp [fisherYates, hj]
    rw [hfy]
    refine ⟨?_, hp.trans (swapCells_perm arr (i + 1) jn hi hjn)⟩
    unfold swapCells at e
    simp [BogoSort.shuffleLoop, hj, rd_nat_succ arr i hi, rd_nat arr jn hjn,
      wr_nat_succ arr i _ hi, hw, e]
    rfl

/-- C16. Bogo shuffle: for every integer sequence of length `n`, every state `s`
reachable from `reset` and every choice of draws `r i` with `0 <= r i <= i`,
one `BogoSort::step()` on an unsorted sequence (`isSorted()` false) performs
exactly the Fisher-Yates pass that exchanges `arr[i]` with `arr[r i]` for
`i = n - 1, ..., 1`, leaves `size` unchanged, and the resulting sequence is a
permutation of the sequence before the step. -/
theorem bogo_step_is_fisher_yates (s0 : BogoSort) (a : List Int) (s : BogoSort)
    (r : Int → Int) (hs : BogoSort.Reachable (BogoSort.reset s0 a a.length) s)
    (hr : ValidDraw r) (hu : BogoSort.isSorted s = some false) :
    BogoSort.step r s = some ⟨fisherYates r (s.arr.length - 1) s.arr, s.size⟩ ∧
      (fisherYates r (s.arr.length - 1) s.arr).Perm s.arr := by
  obtain ⟨hsz, _⟩ := BogoSort.bogo_reach s0 a s hs
  obtain ⟨e, hp⟩ := shuffleLoop_eq_fisherYates r hr (s.arr.length - 1) s.arr (by omega)
  refine ⟨?_, hp⟩
  have e1 : (s.size - 1).toNat = s.arr.length - 1 := by omega
  simp [BogoSort.step, hu, BogoSort.shuffle, e1, e]

theorem bogo_step_is_fisher_yates_witness :
    BogoSort.Reachable (BogoSort.reset BogoSort.new [3, 1, 2] 3) ⟨[3, 1, 2], 3⟩ ∧
    ValidDraw (fun _ => 0) ∧
    BogoSort.isSorted ⟨[3, 1, 2], 3⟩ = some false ∧
    BogoSort.step (fun _ => 0) ⟨[3, 1, 2], 3⟩ = some ⟨[1, 2, 3], 3⟩ ∧
    ([1, 2, 3] : List Int).Perm [3, 1, 2] :=
  have hv : ValidDraw (fun _ => 0) := fun _ h => ⟨le_refl _, le_of_lt h⟩
  have h1 : BogoSort.Reachable (BogoSort.reset BogoSort.new [3, 1, 2] 3) ⟨[3, 1, 2], 3⟩ :=
    ⟨[], fun _ hr => absurd hr (List.not_mem_nil _), rfl⟩
  have h := bogo_step_is_fisher_yates BogoSort.new [3, 1, 2] ⟨[3, 1, 2], 3⟩ (fun _ => 0) h1 hv
    (by decide)
  ⟨h1, hv, by decide, h.1, h.2⟩

end SortViz
